import Mathlib

/-!
Shallow embedding of the `MatchingEngine` and the persistence layer of the
SolanaBettingExchange repository (file `shared/schema.ts`, current revision of
the engine), together with theorems settling the specification claims.

Modelling conventions:
* `decimal.js` fixed-precision decimals are embedded as `ℚ` (the engine uses
  only exact addition, subtraction, `min`, comparison and equality on them).
* Database ids (`uuid` strings) and timestamps are embedded as `Nat`.
* JavaScript's stable `Array.prototype.sort` is embedded as
  `List.insertionSort`, which is also stable; on the inputs the engine sorts
  (a sorted book extended by one fresh price level, and per-level queues) the
  stable sort determines the result uniquely.
* The engine's storage calls (`createTrade`, `updateOrderFilled`,
  `updateOrderStatus`, `updateOrCreatePosition`, `updateMarketPrices`) are
  recorded in a write log (`StorageWrite`), preserving their order.
* All claims quantify within a single market, so the state carries the book
  pair (`yesOrderBook`/`noOrderBook` entry) of the submitted order's market;
  `processOrder` never touches another market's books.
-/

namespace SBE

/-- Order side: the `side` column, 'YES' or 'NO'. -/
inductive Side
  | YES
  | NO
deriving DecidableEq, Repr

/-- Order type: the `type` column, 'MARKET', 'LIMIT', 'IOC' or 'FOK'. -/
inductive OType
  | MARKET
  | LIMIT
  | IOC
  | FOK
deriving DecidableEq, Repr

/-- Order status: the `status` column. -/
inductive OStatus
  | PENDING
  | PARTIAL
  | FILLED
  | CANCELLED
deriving DecidableEq, Repr

/-- The opposite side, as computed by `trade.side === 'YES' ? 'NO' : 'YES'`. -/
def Side.opposite : Side → Side
  | .YES => .NO
  | .NO => .YES

/-- An order row (`orders` table / the `Order` type used by the engine). -/
structure Order where
  id : Nat
  marketId : Nat
  userId : Nat
  side : Side
  otype : OType
  price : ℚ
  size : ℚ
  filled : ℚ
  status : OStatus
  createdAt : Nat
deriving DecidableEq, Repr

/-- A trade row as built by `MatchingEngine.executeTrade` (`InsertTrade`):
the database-generated `id`/`createdAt` columns are omitted. -/
structure Trade where
  marketId : Nat
  buyOrderId : Nat
  sellOrderId : Nat
  buyerId : Nat
  sellerId : Nat
  side : Side
  price : ℚ
  size : ℚ
deriving DecidableEq, Repr

/-- A price level of a book (`interface OrderBookEntry`). -/
structure OrderBookEntry where
  price : ℚ
  size : ℚ
  orders : List Order
deriving DecidableEq, Repr

/-- The two books the engine keeps for a market
(`yesOrderBook.get(marketId)` and `noOrderBook.get(marketId)`,
missing entries read as the empty book). -/
structure BookPair where
  yes : List OrderBookEntry
  no : List OrderBookEntry
deriving DecidableEq, Repr

/-- The empty book pair (a market no order was ever booked for). -/
def emptyBookPair : BookPair := { yes := [], no := [] }

/-- One write through the persistence port (`IStorage`), in program order. -/
inductive StorageWrite
  | createTrade (t : Trade)
  | updateOrderFilled (orderId : Nat) (filled : ℚ)
  | updateOrderStatus (orderId : Nat) (status : OStatus)
  | updateOrCreatePosition (marketId userId : Nat) (side : Side) (shares price : ℚ)
  | updateMarketPrices (marketId : Nat) (yesPrice noPrice : ℚ)
deriving DecidableEq, Repr

/-- The result record of `MatchingEngine.processOrder` (`interface MatchResult`);
an absent `rejected`/`rejectReason` field is `false`/`none`. -/
structure MatchResult where
  order : Order
  trades : List Trade
  rejected : Bool
  rejectReason : Option String
deriving DecidableEq, Repr

/-- A submission outcome: the updated in-memory books, the returned
`MatchResult`, and the storage writes performed, in order. -/
structure EngineStep where
  state : BookPair
  result : MatchResult
  writes : List StorageWrite
deriving DecidableEq, Repr

namespace MatchingEngine

/-- `MatchingEngine.executeTrade`: buy/sell attribution of a trade.
`buyOrder` is the incoming (aggressor) order and `sellOrder` the resting one,
exactly as at the call sites in the matching loops. -/
def executeTrade (buyOrder sellOrder : Order) (size price : ℚ) : Trade :=
  { marketId := buyOrder.marketId
    buyOrderId := if buyOrder.side = .YES then buyOrder.id else sellOrder.id
    sellOrderId := if buyOrder.side = .YES then sellOrder.id else buyOrder.id
    buyerId := if buyOrder.side = .YES then buyOrder.userId else sellOrder.userId
    sellerId := if buyOrder.side = .YES then sellOrder.userId else buyOrder.userId
    side := buyOrder.side
    price := price
    size := size }

/-- `MatchingEngine.updatePositions`: the two position upserts per trade
(buyer at `trade.side` with `+size`, seller at the opposite side with
`-size`, both at the execution price). -/
def updatePositionsWrites (t : Trade) : List StorageWrite :=
  [ .updateOrCreatePosition t.marketId t.buyerId t.side t.size t.price,
    .updateOrCreatePosition t.marketId t.sellerId t.side.opposite (-t.size) t.price ]

/-- The storage writes of one `executeTrade` call: `createTrade` followed by
the two position upserts of `updatePositions`. -/
def executeTradeWrites (t : Trade) : List StorageWrite :=
  .createTrade t :: updatePositionsWrites t

/-- The crossing test of the limit-type matching loop and of the FOK pre-scan:
an incoming YES order crosses a level iff its limit price is ≥ the level
price; an incoming NO order iff its limit price is ≤ the level price. -/
def canMatch (order : Order) (levelPrice : ℚ) : Bool :=
  if order.side = .YES then decide (levelPrice ≤ order.price)
  else decide (order.price ≤ levelPrice)

/-- The mutable locals of the matching loops: `remainingSize`,
`orderCumulativeFilled`, the `trades` array, and the storage write log. -/
structure MatchAcc where
  remainingSize : ℚ
  orderCumulativeFilled : ℚ
  trades : List Trade
  writes : List StorageWrite
deriving DecidableEq, Repr

/-- The accumulator update of one executed match of the inner loop: a trade
against resting order `o` at level price `lp` with match size
`min(remaining, o.size − o.filled)`; appends the trade and the per-trade
storage writes (trade + the two position upserts, then the incoming order's
cumulative filled, then the resting order's new filled, then the resting
order's FILLED status when it became full) and advances the running totals. -/
def tradeStep (order o : Order) (lp : ℚ) (acc : MatchAcc) : MatchAcc :=
  let matchSize := min acc.remainingSize (o.size - o.filled)
  let t := executeTrade order o matchSize lp
  let newFilled := o.filled + matchSize
  { remainingSize := acc.remainingSize - matchSize
    orderCumulativeFilled := acc.orderCumulativeFilled + matchSize
    trades := acc.trades ++ [t]
    writes := acc.writes ++ executeTradeWrites t ++
      [ .updateOrderFilled order.id (acc.orderCumulativeFilled + matchSize),
        .updateOrderFilled o.id newFilled ] ++
      (if o.size = newFilled then [.updateOrderStatus o.id .FILLED] else []) }

/-- The inner `for (const oppositeOrder of level.orders)` loop shared by
`processLimitTypeOrder` and `processMarketOrder`: walks the level's queue,
matching `min(remaining, size − filled)` against each resting order with a
positive match size, producing the trade, the in-memory `filled` mutation of
the resting order and the per-trade storage writes (via `tradeStep`). -/
def matchQueue (order : Order) (levelPrice : ℚ) :
    List Order → MatchAcc → List Order × MatchAcc
  | [], acc => ([], acc)
  | o :: rest, acc =>
    if acc.remainingSize = 0 then (o :: rest, acc)
    else
      let matchSize := min acc.remainingSize (o.size - o.filled)
      if 0 < matchSize then
        let res := matchQueue order levelPrice rest (tradeStep order o levelPrice acc)
        ({ o with filled := o.filled + matchSize } :: res.1, res.2)
      else
        let res := matchQueue order levelPrice rest acc
        (o :: res.1, res.2)

/-- The outer `for (const level of oppositeBook)` loop, parametrised by the
crossing test: `processLimitTypeOrder` passes the limit-price `canMatch`
test, `processMarketOrder` runs the identical loop without the test. The
loop stops at the first level whose crossing test fails, or once the
remaining size reaches zero; untouched levels are returned unchanged. -/
def matchLevels (cross : ℚ → Bool) (order : Order) :
    List OrderBookEntry → MatchAcc → List OrderBookEntry × MatchAcc
  | [], acc => ([], acc)
  | l :: rest, acc =>
    if acc.remainingSize = 0 then (l :: rest, acc)
    else if cross l.price then
      let q := matchQueue order l.price l.orders acc
      let r := matchLevels cross order rest q.2
      ({ l with orders := q.1 } :: r.1, r.2)
    else (l :: rest, acc)

/-- `MatchingEngine.processLimitTypeOrder`: the matching loop with the
limit-price crossing test, starting with `orderCumulativeFilled` equal to the
incoming order's persisted `filled`. Returns the updated opposite book and
the final loop state. -/
def processLimitTypeOrder (order : Order) (oppositeBook : List OrderBookEntry)
    (remainingSize : ℚ) (trades : List Trade) : List OrderBookEntry × MatchAcc :=
  matchLevels (canMatch order) order oppositeBook
    { remainingSize := remainingSize
      orderCumulativeFilled := order.filled
      trades := trades
      writes := [] }

/-- `MatchingEngine.processMarketOrder`: the same loop with no crossing
test (every level crosses). -/
def processMarketOrder (order : Order) (oppositeBook : List OrderBookEntry)
    (remainingSize : ℚ) (trades : List Trade) : List OrderBookEntry × MatchAcc :=
  matchLevels (fun _ => true) order oppositeBook
    { remainingSize := remainingSize
      orderCumulativeFilled := order.filled
      trades := trades
      writes := [] }

/-- The inner summation loop of `canFillOrderCompletely`: accumulates
`size − filled` over a level's queue and returns `none` as soon as the
accumulated available size reaches the incoming order's size (the early
`return true`), else `some` of the accumulator to continue with. -/
def scanQueueAvailable (orderSize : ℚ) : List Order → ℚ → Option ℚ
  | [], acc => some acc
  | o :: rest, acc =>
    let acc' := acc + (o.size - o.filled)
    if orderSize ≤ acc' then none else scanQueueAvailable orderSize rest acc'

/-- The level walk of `canFillOrderCompletely`: stops (returning `false`) at
the first level failing the crossing test or at the end of the book. -/
def canFillLevels (order : Order) : List OrderBookEntry → ℚ → Bool
  | [], _ => false
  | l :: rest, acc =>
    if canMatch order l.price then
      match scanQueueAvailable order.size l.orders acc with
      | none => true
      | some acc' => canFillLevels order rest acc'
    else false

/-- `MatchingEngine.canFillOrderCompletely`: the FOK pre-scan. -/
def canFillOrderCompletely (order : Order) (oppositeBook : List OrderBookEntry) : Bool :=
  canFillLevels order oppositeBook 0

/-- `MatchingEngine.determineOrderStatus`. The `remainingSize` parameter is
unused, as in the source. -/
def determineOrderStatus (orderType : OType) (totalFilled originalSize _remainingSize : ℚ) :
    OStatus :=
  if totalFilled = originalSize then .FILLED
  else if 0 < totalFilled then .PARTIAL
  else if orderType = .IOC ∨ orderType = .FOK then .CANCELLED
  else .PENDING

/-- Ascending creation-time order on orders (the comparator of
`getOrderBookWithPrioritySort`, `(a, b) => a.createdAt − b.createdAt`). -/
def timeLE (a b : Order) : Prop := a.createdAt ≤ b.createdAt

instance : DecidableRel timeLE := fun a b => Nat.decLe a.createdAt b.createdAt

instance : IsTotal Order timeLE := ⟨fun a b => Nat.le_total a.createdAt b.createdAt⟩

instance : IsTrans Order timeLE := ⟨fun _ _ _ h h' => Nat.le_trans h h'⟩

/-- One level's queue sorted ascending by creation time (JavaScript's stable
in-place `Array.prototype.sort`, embedded as the stable insertion sort). -/
def sortOrdersByTime (l : List Order) : List Order :=
  List.insertionSort timeLE l

/-- `MatchingEngine.getOrderBookWithPrioritySort` for one book: each level's
queue sorted ascending by creation time. The JavaScript sort mutates the
queue arrays shared with the stored book, so the stored book's levels carry
these sorted queues from this point on. -/
def getOrderBookWithPrioritySort (book : List OrderBookEntry) : List OrderBookEntry :=
  book.map fun l => { l with orders := sortOrdersByTime l.orders }

/-- Descending price order on levels (`(a, b) => b.price − a.price`),
used to sort the YES book. -/
def priceDescLE (a b : OrderBookEntry) : Prop := b.price ≤ a.price

instance : DecidableRel priceDescLE := fun a b => Rat.instDecidableLe b.price a.price

instance : IsTotal OrderBookEntry priceDescLE := ⟨fun a b => le_total b.price a.price⟩

instance : IsTrans OrderBookEntry priceDescLE := ⟨fun _ _ _ h h' => le_trans h' h⟩

/-- Ascending price order on levels (`(a, b) => a.price − b.price`),
used to sort the NO book. -/
def priceAscLE (a b : OrderBookEntry) : Prop := a.price ≤ b.price

instance : DecidableRel priceAscLE := fun a b => Rat.instDecidableLe a.price b.price

instance : IsTotal OrderBookEntry priceAscLE := ⟨fun a b => le_total a.price b.price⟩

instance : IsTrans OrderBookEntry priceAscLE := ⟨fun _ _ _ h h' => le_trans h h'⟩

/-- The `book.sort(...)` call of `addToOrderBook`:
YES descending by price, NO ascending by price. -/
def sortBookLevels (side : Side) (book : List OrderBookEntry) : List OrderBookEntry :=
  if side = .YES then List.insertionSort priceDescLE book
  else List.insertionSort priceAscLE book

/-- Appends the order to the (first) level with its price and adds its
remainder `size − filled` to the level's aggregate size (the
`level.orders.push` / `level.size` update of `addToOrderBook`). -/
def pushToLevel (order : Order) : List OrderBookEntry → List OrderBookEntry
  | [] => []
  | l :: rest =>
    if l.price = order.price then
      { l with orders := l.orders ++ [order],
               size := l.size + (order.size - order.filled) } :: rest
    else l :: pushToLevel order rest

/-- `MatchingEngine.addToOrderBook` restricted to one side's book: if a level
with the order's price exists, append to it; else create the level, sort the
book (YES descending, NO ascending), and append to the fresh level. -/
def addToOrderBookSide (order : Order) (book : List OrderBookEntry) : List OrderBookEntry :=
  if book.any fun l => decide (l.price = order.price) then
    pushToLevel order book
  else
    pushToLevel order
      (sortBookLevels order.side
        (book ++ [{ price := order.price, size := 0, orders := [] }]))

/-- `MatchingEngine.addToOrderBook`: inserts into the book of the order's
own side. -/
def addToOrderBook (st : BookPair) (order : Order) : BookPair :=
  if order.side = .YES then { st with yes := addToOrderBookSide order st.yes }
  else { st with no := addToOrderBookSide order st.no }

/-- Top-of-book price used by `updateMarketPrices`: the first level's price,
or 0.5 for an empty book. -/
def topPrice (book : List OrderBookEntry) : ℚ :=
  match book with
  | [] => 1 / 2
  | l :: _ => l.price

/-- The `updateMarketPrices` storage write at the end of a submission. -/
def updateMarketPricesWrite (marketId : Nat) (st : BookPair) : StorageWrite :=
  .updateMarketPrices marketId (topPrice st.yes) (topPrice st.no)

/-- The reject reason returned for an unfillable FOK order. -/
def fokRejectReason : String := "FOK order cannot be completely filled"

/-- The book the incoming order matches against
(`order.side === 'YES' ? noOrderBook : yesOrderBook`). -/
def oppositeBookOf (st : BookPair) (s : Side) : List OrderBookEntry :=
  if s = .YES then st.no else st.yes

/-- The book of an order's own side. -/
def ownBookOf (st : BookPair) (s : Side) : List OrderBookEntry :=
  if s = .YES then st.yes else st.no

/-- Replaces the book opposite to side `s`. -/
def setOppositeBook (st : BookPair) (s : Side) (book : List OrderBookEntry) : BookPair :=
  if s = .YES then { st with no := book } else { st with yes := book }

/-- The matching-loop dispatch of `processOrder`: MARKET runs the loop with
no crossing test, every other type (LIMIT, IOC, FOK) runs the limit-price
crossing-test loop, both on the time-sorted opposite book, starting from the
full order size and an empty trade list. -/
def matchLoopResult (st : BookPair) (order : Order) : List OrderBookEntry × MatchAcc :=
  if order.otype = .MARKET then
    processMarketOrder order
      (getOrderBookWithPrioritySort (oppositeBookOf st order.side)) order.size []
  else
    processLimitTypeOrder order
      (getOrderBookWithPrioritySort (oppositeBookOf st order.side)) order.size []

/-- The status assigned by `processOrder` after the matching loop:
`determineOrderStatus`, then the IOC post-processing (PARTIAL when anything
filled, CANCELLED otherwise, whenever an IOC remainder is nonzero). -/
def finalStatus (order : Order) (remaining : ℚ) : OStatus :=
  let totalFilled := order.size - remaining
  let status0 := determineOrderStatus order.otype totalFilled order.size remaining
  if order.otype = .IOC ∧ remaining ≠ 0 then
    if 0 < totalFilled then OStatus.PARTIAL else OStatus.CANCELLED
  else status0

/-- `MatchingEngine.processOrder` (current revision): time-sorts the opposite
book (visibly, since the JavaScript sort is in place), rejects unfillable FOK
orders atomically, dispatches the matching loop per order type
(`matchLoopResult`), computes the status (`finalStatus`), books a LIMIT
remainder, and finally publishes the top-of-book prices. The updated order
returned carries the persisted cumulative filled. -/
def processOrder (st : BookPair) (order : Order) : EngineStep :=
  let oppositeBook := getOrderBookWithPrioritySort (oppositeBookOf st order.side)
  if order.otype = .FOK ∧ ¬ canFillOrderCompletely order oppositeBook then
    { state := setOppositeBook st order.side oppositeBook
      result :=
        { order := { order with status := .CANCELLED }
          trades := []
          rejected := true
          rejectReason := some fokRejectReason }
      writes := [.updateOrderStatus order.id .CANCELLED] }
  else
    let step := matchLoopResult st order
    let status := finalStatus order step.2.remainingSize
    let updatedOrder := { order with status := status, filled := step.2.orderCumulativeFilled }
    let st2 := setOppositeBook st order.side step.1
    let st3 :=
      if step.2.remainingSize ≠ 0 ∧ order.otype = .LIMIT ∧ status ≠ .CANCELLED then
        addToOrderBook st2 updatedOrder
      else st2
    { state := st3
      result :=
        { order := updatedOrder, trades := step.2.trades, rejected := false, rejectReason := none }
      writes := step.2.writes ++
        [.updateOrderStatus order.id status, updateMarketPricesWrite order.marketId st3] }

/-- Descending creation-time order (the SQL `orderBy(desc(orders.createdAt))`
of `DatabaseStorage.getActiveMarketOrders`). -/
def timeDescLE (a b : Order) : Prop := b.createdAt ≤ a.createdAt

instance : DecidableRel timeDescLE := fun a b => Nat.decLe b.createdAt a.createdAt

instance : IsTotal Order timeDescLE := ⟨fun a b => Nat.le_total b.createdAt a.createdAt⟩

instance : IsTrans Order timeDescLE := ⟨fun _ _ _ h h' => Nat.le_trans h' h⟩

/-- `DatabaseStorage.getActiveMarketOrders`: the orders of the market with
status 'PENDING', sorted by `createdAt` descending. -/
def getActiveMarketOrders (marketId : Nat) (persisted : List Order) : List Order :=
  List.insertionSort timeDescLE
    (persisted.filter fun o => decide (o.marketId = marketId) && decide (o.status = .PENDING))

/-- `MatchingEngine.loadOrderBook`: inserts each fetched active order into
the engine's books, in the fetched order. -/
def loadOrderBook (st : BookPair) (marketId : Nat) (persisted : List Order) : BookPair :=
  (getActiveMarketOrders marketId persisted).foldl addToOrderBook st

end MatchingEngine

/-- The shares/average-price part of the position row written by
`DatabaseStorage.updateOrCreatePosition`. `avgPrice = none` models the
non-finite JavaScript number (NaN or ±Infinity) produced when the update
divides by a zero combined share count. -/
structure PositionUpdate where
  shares : ℚ
  avgPrice : Option ℚ
deriving DecidableEq, Repr

/-- `DatabaseStorage.updateOrCreatePosition` for one `(market, user, side)`
key: `existing = some (shares, avgPrice)` when a position row exists. With an
existing row the code always computes
`(existing.shares * existing.avgPrice + shares * avgPrice) / newShares`
with `newShares = existing.shares + shares`; there is no guard, so when
`newShares = 0` the division is by zero (`none` here, a non-finite number in
JavaScript). Without an existing row the given shares and price are stored. -/
def updateOrCreatePosition (existing : Option (ℚ × ℚ)) (shares avgPrice : ℚ) :
    PositionUpdate :=
  match existing with
  | some (existingShares, existingAvg) =>
    let newShares := existingShares + shares
    { shares := newShares
      avgPrice :=
        if newShares = 0 then none
        else some ((existingShares * existingAvg + shares * avgPrice) / newShares) }
  | none => { shares := shares, avgPrice := some avgPrice }

namespace MatchingEngine

/-- All order ids resting in a book, level by level. -/
def bookOrderIds (book : List OrderBookEntry) : List Nat :=
  (book.map fun l => l.orders.map Order.id).flatten

/-- The values carried by the `updateOrderFilled` writes for the given order
id, in write order. -/
def filledWritesFor (orderId : Nat) (ws : List StorageWrite) : List ℚ :=
  ws.filterMap fun w =>
    match w with
    | .updateOrderFilled i v => if i = orderId then some v else none
    | _ => none

/-- Running totals: `cumFrom s [a, b, c] = [s + a, s + a + b, s + a + b + c]`. -/
def cumFrom (start : ℚ) : List ℚ → List ℚ
  | [] => []
  | x :: rest => (start + x) :: cumFrom (start + x) rest

/-- The YES book is sorted descending by price. -/
def yesBookSorted (book : List OrderBookEntry) : Prop :=
  List.Pairwise priceDescLE book

/-- The NO book is sorted ascending by price. -/
def noBookSorted (book : List OrderBookEntry) : Prop :=
  List.Pairwise priceAscLE book

/-- Both books of the market are sorted the way `addToOrderBook` sorts them:
YES descending by price, NO ascending by price. -/
def booksSorted (st : BookPair) : Prop :=
  yesBookSorted st.yes ∧ noBookSorted st.no

/-- Every level queue of the book is in ascending creation-time order. -/
def bookTimeSorted (book : List OrderBookEntry) : Prop :=
  ∀ l ∈ book, List.Pairwise timeLE l.orders

/-- Relates a resting order before a matching loop to the same order after
it: the order keeps its identity and size (it is never removed), and if
matching made it completely filled, a FILLED status write was recorded. -/
def keptOrder (ws : List StorageWrite) (o o' : Order) : Prop :=
  o'.id = o.id ∧ o'.size = o.size ∧
    (o.filled < o.size → o'.size ≤ o'.filled →
      StorageWrite.updateOrderStatus o.id .FILLED ∈ ws)

/-- Relates a book level before a matching loop to the same level after it. -/
def keptLevel (ws : List StorageWrite) (l l' : OrderBookEntry) : Prop :=
  l'.price = l.price ∧ List.Forall₂ (keptOrder ws) l.orders l'.orders

/-- The property a warm-loaded book satisfies: every level queue is in
descending creation-time order and holds only PENDING orders of the market. -/
def goodBook (m : Nat) (book : List OrderBookEntry) : Prop :=
  ∀ l ∈ book, List.Pairwise timeDescLE l.orders ∧
    ∀ x ∈ l.orders, x.status = .PENDING ∧ x.marketId = m

/-- A freshly submitted PENDING order of market 0 with zero filled, used by
the concrete instances below. -/
def mkOrder (id userId : Nat) (side : Side) (otype : OType) (price size : ℚ)
    (createdAt : Nat) : Order :=
  { id := id, marketId := 0, userId := userId, side := side, otype := otype,
    price := price, size := size, filled := 0, status := .PENDING,
    createdAt := createdAt }

/-- Concrete instance: a resting YES limit order, 0.6 × 10. -/
def c1Resting : Order := mkOrder 1 10 .YES .LIMIT (3 / 5) 10 1

/-- Concrete instance: the book holding only `c1Resting`. -/
def c1Book : BookPair := addToOrderBook emptyBookPair c1Resting

/-- Concrete instance: an incoming NO limit order crossing `c1Resting`. -/
def c1Incoming : Order := mkOrder 2 20 .NO .LIMIT (3 / 5) 10 2

/-- Concrete instance: a resting NO limit order, 0.4 × 50. -/
def c2Resting : Order := mkOrder 1 10 .NO .LIMIT (2 / 5) 50 1

/-- Concrete instance: the book holding only `c2Resting`. -/
def c2Book : BookPair := addToOrderBook emptyBookPair c2Resting

/-- Concrete instance: an incoming YES limit order that exactly fills
`c2Resting`. -/
def c2Incoming : Order := mkOrder 2 20 .YES .LIMIT (3 / 5) 50 2

/-- Concrete instance: the state after submitting a NO limit order at 0.95. -/
def c3State1 : BookPair :=
  (processOrder emptyBookPair (mkOrder 1 10 .NO .LIMIT (19 / 20) 10 1)).state

/-- Concrete instance: an incoming YES limit order at 0.90 that rests. -/
def c3Incoming : Order := mkOrder 2 20 .YES .LIMIT (9 / 10) 10 2

/-- Concrete instance: the state after also submitting `c3Incoming`. -/
def c3State2 : BookPair := (processOrder c3State1 c3Incoming).state

/-- Concrete instance: two NO limit orders booked at prices 0.3 then 0.5. -/
def c4Book : BookPair :=
  [mkOrder 1 10 .NO .LIMIT (3 / 10) 5 1,
   mkOrder 2 11 .NO .LIMIT (1 / 2) 5 2].foldl addToOrderBook emptyBookPair

/-- Concrete instance: a book with 50 available NO shares at 0.6. -/
def c5Book : BookPair := addToOrderBook emptyBookPair (mkOrder 1 10 .NO .LIMIT (3 / 5) 50 1)

/-- Concrete instance: a FOK YES order for 100 shares against `c5Book`. -/
def c5Incoming : Order := mkOrder 2 20 .YES .FOK (3 / 5) 100 2

/-- Concrete instance: a book with 50 available NO shares at 0.6. -/
def c6Book : BookPair := addToOrderBook emptyBookPair (mkOrder 1 10 .NO .LIMIT (3 / 5) 50 1)

/-- Concrete instance: an IOC YES order for 100 shares against `c6Book`. -/
def c6Incoming : Order := mkOrder 2 20 .YES .IOC (3 / 5) 100 2

/-- Concrete instance: three NO levels, 25 shares each at 0.30 / 0.35 / 0.40. -/
def c7Book : BookPair :=
  [mkOrder 1 10 .NO .LIMIT (3 / 10) 25 1,
   mkOrder 2 11 .NO .LIMIT (7 / 20) 25 2,
   mkOrder 3 12 .NO .LIMIT (2 / 5) 25 3].foldl addToOrderBook emptyBookPair

/-- Concrete instance: a YES limit order for 60 shares walking `c7Book`. -/
def c7Incoming : Order := mkOrder 4 20 .YES .LIMIT (1 / 2) 60 4

/-- Concrete instance: the earlier of two NO orders at the same price. -/
def c8Order1 : Order := mkOrder 1 10 .NO .LIMIT (2 / 5) 10 1

/-- Concrete instance: the later of two NO orders at the same price. -/
def c8Order2 : Order := mkOrder 2 11 .NO .LIMIT (2 / 5) 10 2

/-- Concrete instance: the book before unload, built in submission order. -/
def c8PreBook : BookPair := [c8Order1, c8Order2].foldl addToOrderBook emptyBookPair

/-- Concrete instance: the book reconstructed by warm-loading the two
persisted orders. -/
def c8Reloaded : BookPair := loadOrderBook emptyBookPair 0 [c8Order1, c8Order2]

/-- Concrete instance: a book with 100 available NO shares at 0.4. -/
def c10Book : BookPair :=
  addToOrderBook emptyBookPair (mkOrder 1 10 .NO .LIMIT (2 / 5) 100 1)

/-- Concrete instance: a zero-size YES limit order. -/
def c10Incoming : Order := mkOrder 3 30 .YES .LIMIT (3 / 5) 0 3

/-- Concrete instance: the trade produced when `c1Incoming` (NO aggressor)
matches `c1Resting` (YES resting): the resting order is recorded as buyer. -/
def c1Trade : Trade :=
  { marketId := 0, buyOrderId := 1, sellOrderId := 2, buyerId := 10,
    sellerId := 20, side := .NO, price := 3 / 5, size := 10 }

instance (book : List OrderBookEntry) : Decidable (yesBookSorted book) :=
  inferInstanceAs (Decidable (List.Pairwise priceDescLE book))

instance (book : List OrderBookEntry) : Decidable (noBookSorted book) :=
  inferInstanceAs (Decidable (List.Pairwise priceAscLE book))

instance (st : BookPair) : Decidable (booksSorted st) :=
  inferInstanceAs (Decidable (yesBookSorted st.yes ∧ noBookSorted st.no))

instance (book : List OrderBookEntry) : Decidable (bookTimeSorted book) :=
  inferInstanceAs (Decidable (∀ l ∈ book, List.Pairwise timeLE l.orders))

instance (m : Nat) (book : List OrderBookEntry) : Decidable (goodBook m book) :=
  inferInstanceAs (Decidable (∀ l ∈ book, List.Pairwise timeDescLE l.orders ∧
    ∀ x ∈ l.orders, x.status = .PENDING ∧ x.marketId = m))

@[simp] lemma tradeStep_remainingSize (order o : Order) (lp : ℚ) (acc : MatchAcc) :
    (tradeStep order o lp acc).remainingSize =
      acc.remainingSize - min acc.remainingSize (o.size - o.filled) := rfl

@[simp] lemma tradeStep_orderCumulativeFilled (order o : Order) (lp : ℚ) (acc : MatchAcc) :
    (tradeStep order o lp acc).orderCumulativeFilled =
      acc.orderCumulativeFilled + min acc.remainingSize (o.size - o.filled) := rfl

@[simp] lemma tradeStep_trades (order o : Order) (lp : ℚ) (acc : MatchAcc) :
    (tradeStep order o lp acc).trades =
      acc.trades ++ [executeTrade order o (min acc.remainingSize (o.size - o.filled)) lp] := rfl

@[simp] lemma tradeStep_writes (order o : Order) (lp : ℚ) (acc : MatchAcc) :
    (tradeStep order o lp acc).writes =
      acc.writes ++
        executeTradeWrites
          (executeTrade order o (min acc.remainingSize (o.size - o.filled)) lp) ++
        [ .updateOrderFilled order.id
            (acc.orderCumulativeFilled + min acc.remainingSize (o.size - o.filled)),
          .updateOrderFilled o.id
            (o.filled + min acc.remainingSize (o.size - o.filled)) ] ++
        (if o.size = o.filled + min acc.remainingSize (o.size - o.filled) then
          [.updateOrderStatus o.id .FILLED] else []) := rfl

lemma matchQueue_of_remaining_zero (order : Order) (lp : ℚ) (os : List Order)
    (acc : MatchAcc) (h : acc.remainingSize = 0) :
    matchQueue order lp os acc = (os, acc) := by
  cases os with
  | nil => rfl
  | cons o rest => simp [matchQueue, h]

lemma matchLevels_of_remaining_zero (cross : ℚ → Bool) (order : Order)
    (book : List OrderBookEntry) (acc : MatchAcc) (h : acc.remainingSize = 0) :
    matchLevels cross order book acc = (book, acc) := by
  cases book with
  | nil => rfl
  | cons l rest => simp [matchLevels, h]

lemma matchQueue_remaining_le (order : Order) (lp : ℚ) (os : List Order) (acc : MatchAcc) :
    (matchQueue order lp os acc).2.remainingSize ≤ acc.remainingSize := by
  induction os generalizing acc with
  | nil => simp [matchQueue]
  | cons o rest ih =>
    by_cases h0 : acc.remainingSize = 0
    · simp [matchQueue, h0]
    · by_cases hm : 0 < min acc.remainingSize (o.size - o.filled)
      · simp only [matchQueue, if_neg h0, if_pos hm]
        exact le_trans (ih _) (sub_le_self _ (le_of_lt hm))
      · simp only [matchQueue, if_neg h0, if_neg hm]
        exact ih _

lemma matchQueue_remaining_nonneg (order : Order) (lp : ℚ) (os : List Order)
    (acc : MatchAcc) (h : 0 ≤ acc.remainingSize) :
    0 ≤ (matchQueue order lp os acc).2.remainingSize := by
  induction os generalizing acc with
  | nil => simpa [matchQueue] using h
  | cons o rest ih =>
    by_cases h0 : acc.remainingSize = 0
    · simp [matchQueue, h0, h]
    · by_cases hm : 0 < min acc.remainingSize (o.size - o.filled)
      · simp only [matchQueue, if_neg h0, if_pos hm]
        exact ih _ (sub_nonneg.mpr (min_le_left _ _))
      · simp only [matchQueue, if_neg h0, if_neg hm]
        exact ih _ h

lemma matchLevels_remaining_nonneg (cross : ℚ → Bool) (order : Order)
    (book : List OrderBookEntry) (acc : MatchAcc) (h : 0 ≤ acc.remainingSize) :
    0 ≤ (matchLevels cross order book acc).2.remainingSize := by
  induction book generalizing acc with
  | nil => simpa [matchLevels] using h
  | cons l rest ih =>
    by_cases h0 : acc.remainingSize = 0
    · simp [matchLevels, h0, h]
    · by_cases hc : cross l.price
      · simp only [matchLevels, if_neg h0, if_pos hc]
        exact ih _ (matchQueue_remaining_nonneg _ _ _ _ h)
      · simp [matchLevels, h0, hc, h]

lemma acc_ne_zero_of_matchQueue_ne_zero {order : Order} {lp : ℚ} {os : List Order}
    {acc : MatchAcc} (h : (matchQueue order lp os acc).2.remainingSize ≠ 0) :
    acc.remainingSize ≠ 0 := by
  intro h0
  rw [matchQueue_of_remaining_zero order lp os acc h0] at h
  exact h h0

lemma acc_ne_zero_of_matchLevels_ne_zero {cross : ℚ → Bool} {order : Order}
    {book : List OrderBookEntry} {acc : MatchAcc}
    (h : (matchLevels cross order book acc).2.remainingSize ≠ 0) :
    acc.remainingSize ≠ 0 := by
  intro h0
  rw [matchLevels_of_remaining_zero cross order book acc h0] at h
  exact h h0

lemma mem_writes_matchQueue (order : Order) (lp : ℚ) (os : List Order) (acc : MatchAcc)
    {w : StorageWrite} (h : w ∈ acc.writes) :
    w ∈ (matchQueue order lp os acc).2.writes := by
  induction os generalizing acc with
  | nil => simpa [matchQueue] using h
  | cons o rest ih =>
    by_cases h0 : acc.remainingSize = 0
    · simpa [matchQueue, h0] using h
    · by_cases hm : 0 < min acc.remainingSize (o.size - o.filled)
      · simp only [matchQueue, if_neg h0, if_pos hm]
        exact ih _ (by simp [h])
      · simp only [matchQueue, if_neg h0, if_neg hm]
        exact ih _ h

lemma mem_writes_matchLevels (cross : ℚ → Bool) (order : Order)
    (book : List OrderBookEntry) (acc : MatchAcc)
    {w : StorageWrite} (h : w ∈ acc.writes) :
    w ∈ (matchLevels cross order book acc).2.writes := by
  induction book generalizing acc with
  | nil => simpa [matchLevels] using h
  | cons l rest ih =>
    by_cases h0 : acc.remainingSize = 0
    · simpa [matchLevels, h0] using h
    · by_cases hc : cross l.price
      · simp only [matchLevels, if_neg h0, if_pos hc]
        exact ih _ (mem_writes_matchQueue _ _ _ _ h)
      · simp [matchLevels, h0, hc, h]

lemma matchQueue_all_consumed (order : Order) (lp : ℚ) (os : List Order) (acc : MatchAcc)
    (h0 : 0 ≤ acc.remainingSize)
    (h : (matchQueue order lp os acc).2.remainingSize ≠ 0) :
    ∀ x ∈ (matchQueue order lp os acc).1, x.size ≤ x.filled := by
  induction os generalizing acc with
  | nil => intro x hx; simp [matchQueue] at hx
  | cons o rest ih =>
    have hne : acc.remainingSize ≠ 0 := acc_ne_zero_of_matchQueue_ne_zero h
    have hpos : 0 < acc.remainingSize := lt_of_le_of_ne h0 (Ne.symm hne)
    by_cases hm : 0 < min acc.remainingSize (o.size - o.filled)
    · simp only [matchQueue, if_neg hne, if_pos hm] at h ⊢
      intro x hx
      rcases List.mem_cons.mp hx with rfl | hx
      · by_cases hav : o.size - o.filled ≤ acc.remainingSize
        · simp [min_eq_right hav]
        · exfalso
          have hms : min acc.remainingSize (o.size - o.filled) = acc.remainingSize :=
            min_eq_left (le_of_lt (lt_of_not_le hav))
          have hz : (tradeStep order o lp acc).remainingSize = 0 := by
            simp [hms]
          rw [matchQueue_of_remaining_zero _ _ _ _ hz] at h
          exact h hz
      · exact ih (tradeStep order o lp acc)
          (by simp [sub_nonneg.mpr (min_le_left _ _)]) h x hx
    · simp only [matchQueue, if_neg hne, if_neg hm] at h ⊢
      intro x hx
      rcases List.mem_cons.mp hx with rfl | hx
      · have hav : x.size - x.filled ≤ 0 := by
          rcases le_or_lt (x.size - x.filled) 0 with hle | hlt
          · exact hle
          · exact absurd (lt_min hpos hlt) hm
        linarith
      · exact ih acc h0 h x hx

lemma matchLevels_all_consumed (cross : ℚ → Bool) (order : Order)
    (book : List OrderBookEntry) (acc : MatchAcc)
    (hmono : List.Pairwise (fun a b : OrderBookEntry =>
      cross a.price = false → cross b.price = false) book)
    (h0 : 0 ≤ acc.remainingSize)
    (h : (matchLevels cross order book acc).2.remainingSize ≠ 0) :
    ∀ l ∈ (matchLevels cross order book acc).1, cross l.price = true →
      ∀ x ∈ l.orders, x.size ≤ x.filled := by
  induction book generalizing acc with
  | nil => intro l hl; simp [matchLevels] at hl
  | cons l rest ih =>
    have hne : acc.remainingSize ≠ 0 := acc_ne_zero_of_matchLevels_ne_zero h
    by_cases hc : cross l.price
    · simp only [matchLevels, if_neg hne, if_pos hc] at h ⊢
      intro lvl hlvl hcross x hx
      rcases List.mem_cons.mp hlvl with rfl | hlvl
      · have hq : (matchQueue order l.price l.orders acc).2.remainingSize ≠ 0 := by
          intro hz
          rw [matchLevels_of_remaining_zero _ _ _ _ hz] at h
          exact h hz
        exact matchQueue_all_consumed order l.price l.orders acc h0 hq x hx
      · exact ih _ (List.pairwise_cons.mp hmono).2
          (matchQueue_remaining_nonneg _ _ _ _ h0) h lvl hlvl hcross x hx
    · simp only [matchLevels, if_neg hne, if_neg hc] at h ⊢
      intro lvl hlvl hcross x hx
      rcases List.mem_cons.mp hlvl with rfl | hlvl
      · rw [hcross] at hc; exact absurd rfl hc
      · have : cross lvl.price = false :=
          (List.pairwise_cons.mp hmono).1 lvl hlvl (Bool.eq_false_iff.mpr hc)
        rw [hcross] at this
        exact absurd this (by simp)

lemma matchQueue_trades_shape (order : Order) (lp : ℚ) (os : List Order) (acc : MatchAcc) :
    ∀ t ∈ (matchQueue order lp os acc).2.trades,
      t ∈ acc.trades ∨ ∃ r ∈ os, ∃ ms, t = executeTrade order r ms lp := by
  induction os generalizing acc with
  | nil => intro t ht; exact Or.inl (by simpa [matchQueue] using ht)
  | cons o rest ih =>
    intro t ht
    by_cases h0 : acc.remainingSize = 0
    · exact Or.inl (by simpa [matchQueue, h0] using ht)
    · by_cases hm : 0 < min acc.remainingSize (o.size - o.filled)
      · simp only [matchQueue, if_neg h0, if_pos hm] at ht
        rcases ih _ t ht with h | ⟨r, hr, ms, rfl⟩
        · simp only [tradeStep_trades, List.mem_append, List.mem_singleton] at h
          rcases h with h | rfl
          · exact Or.inl h
          · exact Or.inr ⟨o, List.mem_cons_self o rest, _, rfl⟩
        · exact Or.inr ⟨r, List.mem_cons_of_mem o hr, ms, rfl⟩
      · simp only [matchQueue, if_neg h0, if_neg hm] at ht
        rcases ih _ t ht with h | ⟨r, hr, ms, rfl⟩
        · exact Or.inl h
        · exact Or.inr ⟨r, List.mem_cons_of_mem o hr, ms, rfl⟩

lemma matchLevels_trades_shape (cross : ℚ → Bool) (order : Order)
    (book : List OrderBookEntry) (acc : MatchAcc) :
    ∀ t ∈ (matchLevels cross order book acc).2.trades,
      t ∈ acc.trades ∨ ∃ l ∈ book, ∃ r ∈ l.orders, ∃ ms, t = executeTrade order r ms l.price := by
  induction book generalizing acc with
  | nil => intro t ht; exact Or.inl (by simpa [matchLevels] using ht)
  | cons l rest ih =>
    intro t ht
    by_cases h0 : acc.remainingSize = 0
    · exact Or.inl (by simpa [matchLevels, h0] using ht)
    · by_cases hc : cross l.price
      · simp only [matchLevels, if_neg h0, if_pos hc] at ht
        rcases ih _ t ht with h | ⟨lvl, hlvl, r, hr, ms, rfl⟩
        · rcases matchQueue_trades_shape order l.price l.orders acc t h with h | ⟨r, hr, ms, rfl⟩
          · exact Or.inl h
          · exact Or.inr ⟨l, List.mem_cons_self l rest, r, hr, ms, rfl⟩
        · exact Or.inr ⟨lvl, List.mem_cons_of_mem l hlvl, r, hr, ms, rfl⟩
      · exact Or.inl (by simpa [matchLevels, h0, hc] using ht)

lemma keptOrder_refl (ws : List StorageWrite) (o : Order) : keptOrder ws o o :=
  ⟨rfl, rfl, fun h1 h2 => absurd h2 (not_le.mpr h1)⟩

lemma keptOrder_mono {ws ws' : List StorageWrite} (hsub : ∀ w ∈ ws, w ∈ ws')
    {o o' : Order} (h : keptOrder ws o o') : keptOrder ws' o o' :=
  ⟨h.1, h.2.1, fun h1 h2 => hsub _ (h.2.2 h1 h2)⟩

lemma forall₂_keptOrder_refl (ws : List StorageWrite) (os : List Order) :
    List.Forall₂ (keptOrder ws) os os :=
  List.forall₂_same.mpr fun o _ => keptOrder_refl ws o

lemma filledWrite_mem_tradeStep (order o : Order) (lp : ℚ) (acc : MatchAcc)
    (heq : o.size = o.filled + min acc.remainingSize (o.size - o.filled)) :
    StorageWrite.updateOrderStatus o.id .FILLED ∈ (tradeStep order o lp acc).writes := by
  simp only [tradeStep_writes, List.mem_append]
  right
  rw [if_pos heq]
  simp

lemma matchQueue_kept (order : Order) (lp : ℚ) (os : List Order) (acc : MatchAcc) :
    List.Forall₂ (keptOrder (matchQueue order lp os acc).2.writes) os
      (matchQueue order lp os acc).1 := by
  induction os generalizing acc with
  | nil => simp [matchQueue]
  | cons o rest ih =>
    by_cases h0 : acc.remainingSize = 0
    · rw [matchQueue_of_remaining_zero _ _ _ _ h0]
      exact forall₂_keptOrder_refl _ _
    · by_cases hm : 0 < min acc.remainingSize (o.size - o.filled)
      · simp only [matchQueue, if_neg h0, if_pos hm]
        constructor
        · refine ⟨rfl, rfl, fun h1 h2 => ?_⟩
          have h2' : o.size ≤ o.filled + min acc.remainingSize (o.size - o.filled) := h2
          have hle : min acc.remainingSize (o.size - o.filled) ≤ o.size - o.filled :=
            min_le_right _ _
          have heq : o.size = o.filled + min acc.remainingSize (o.size - o.filled) := by
            linarith
          exact mem_writes_matchQueue _ _ _ _ (filledWrite_mem_tradeStep order o lp acc heq)
        · exact ih _
      · simp only [matchQueue, if_neg h0, if_neg hm]
        exact List.Forall₂.cons (keptOrder_refl _ o) (ih _)

lemma matchLevels_kept (cross : ℚ → Bool) (order : Order)
    (book : List OrderBookEntry) (acc : MatchAcc) :
    List.Forall₂ (keptLevel (matchLevels cross order book acc).2.writes) book
      (matchLevels cross order book acc).1 := by
  induction book generalizing acc with
  | nil => simp [matchLevels]
  | cons l rest ih =>
    by_cases h0 : acc.remainingSize = 0
    · rw [matchLevels_of_remaining_zero _ _ _ _ h0]
      exact List.forall₂_same.mpr fun lvl _ => ⟨rfl, forall₂_keptOrder_refl _ _⟩
    · by_cases hc : cross l.price
      · simp only [matchLevels, if_neg h0, if_pos hc]
        constructor
        · refine ⟨rfl, ?_⟩
          exact (matchQueue_kept order l.price l.orders acc).imp
            fun _ _ ho => keptOrder_mono (fun w hw => mem_writes_matchLevels _ _ _ _ hw) ho
        · exact ih _
      · simp only [matchLevels, if_neg h0, if_neg hc]
        exact List.forall₂_same.mpr fun lvl _ => ⟨rfl, forall₂_keptOrder_refl _ _⟩

@[simp] lemma filledWritesFor_append (oid : Nat) (ws1 ws2 : List StorageWrite) :
    filledWritesFor oid (ws1 ++ ws2) = filledWritesFor oid ws1 ++ filledWritesFor oid ws2 :=
  List.filterMap_append ws1 ws2 _

@[simp] lemma filledWritesFor_executeTradeWrites (oid : Nat) (t : Trade) :
    filledWritesFor oid (executeTradeWrites t) = [] := rfl

@[simp] lemma filledWritesFor_statusWrite (oid oid' : Nat) (s : OStatus) (c : Prop)
    [Decidable c] :
    filledWritesFor oid (if c then [StorageWrite.updateOrderStatus oid' s] else []) = [] := by
  split <;> rfl

@[simp] lemma filledWritesFor_nil (oid : Nat) : filledWritesFor oid [] = [] := rfl

lemma filledWritesFor_cons_filled_self (oid : Nat) (v : ℚ) (ws : List StorageWrite) :
    filledWritesFor oid (StorageWrite.updateOrderFilled oid v :: ws) =
      v :: filledWritesFor oid ws := by
  simp [filledWritesFor, List.filterMap_cons]

lemma filledWritesFor_cons_filled_other (oid i : Nat) (v : ℚ) (ws : List StorageWrite)
    (h : ¬ i = oid) :
    filledWritesFor oid (StorageWrite.updateOrderFilled i v :: ws) =
      filledWritesFor oid ws := by
  simp [filledWritesFor, List.filterMap_cons, h]

lemma cumFrom_append_singleton (start : ℚ) (xs : List ℚ) (y : ℚ) :
    cumFrom start (xs ++ [y]) = cumFrom start xs ++ [start + xs.sum + y] := by
  induction xs generalizing start with
  | nil => simp [cumFrom]
  | cons x rest ih =>
    rw [List.cons_append]
    simp only [cumFrom, List.sum_cons, List.cons_append, List.cons.injEq, true_and]
    rw [ih]
    have h2 : start + x + rest.sum + y = start + (x + rest.sum) + y := by ring
    rw [h2]

lemma matchQueue_filledWrites (order : Order) (lp : ℚ) (os : List Order) (acc : MatchAcc)
    (start : ℚ)
    (hid : ∀ r ∈ os, r.id ≠ order.id)
    (hcum : acc.orderCumulativeFilled = start + (acc.trades.map Trade.size).sum)
    (hw : filledWritesFor order.id acc.writes = cumFrom start (acc.trades.map Trade.size)) :
    filledWritesFor order.id (matchQueue order lp os acc).2.writes =
      cumFrom start ((matchQueue order lp os acc).2.trades.map Trade.size) := by
  induction os generalizing acc with
  | nil => simpa [matchQueue] using hw
  | cons o rest ih =>
    by_cases h0 : acc.remainingSize = 0
    · rw [matchQueue_of_remaining_zero _ _ _ _ h0]
      exact hw
    · by_cases hm : 0 < min acc.remainingSize (o.size - o.filled)
      · simp only [matchQueue, if_neg h0, if_pos hm]
        apply ih _ (fun r hr => hid r (List.mem_cons_of_mem o hr))
        · simp only [tradeStep_orderCumulativeFilled, tradeStep_trades, List.map_append,
            List.sum_append, hcum]
          simp [executeTrade]
          ring
        · simp only [tradeStep_writes, tradeStep_trades, filledWritesFor_append,
            filledWritesFor_executeTradeWrites, filledWritesFor_statusWrite, hw,
            List.map_append, List.map_cons, List.map_nil]
          have hne : ¬ o.id = order.id := hid o (List.mem_cons_self o rest)
          rw [filledWritesFor_cons_filled_self,
            filledWritesFor_cons_filled_other _ _ _ _ hne, filledWritesFor_nil,
            cumFrom_append_singleton]
          simp [executeTrade, hcum]
      · simp only [matchQueue, if_neg h0, if_neg hm]
        exact ih _ (fun r hr => hid r (List.mem_cons_of_mem o hr)) hcum hw

lemma matchQueue_cum_invariant (order : Order) (lp : ℚ) (os : List Order) (acc : MatchAcc)
    (start : ℚ)
    (hcum : acc.orderCumulativeFilled = start + (acc.trades.map Trade.size).sum) :
    (matchQueue order lp os acc).2.orderCumulativeFilled =
      start + ((matchQueue order lp os acc).2.trades.map Trade.size).sum := by
  induction os generalizing acc with
  | nil => simpa [matchQueue] using hcum
  | cons o rest ih =>
    by_cases h0 : acc.remainingSize = 0
    · rw [matchQueue_of_remaining_zero _ _ _ _ h0]
      exact hcum
    · by_cases hm : 0 < min acc.remainingSize (o.size - o.filled)
      · simp only [matchQueue, if_neg h0, if_pos hm]
        apply ih
        simp only [tradeStep_orderCumulativeFilled, tradeStep_trades, List.map_append,
          List.sum_append, hcum]
        simp [executeTrade]
        ring
      · simp only [matchQueue, if_neg h0, if_neg hm]
        exact ih _ hcum

lemma matchLevels_filledWrites (cross : ℚ → Bool) (order : Order)
    (book : List OrderBookEntry) (acc : MatchAcc) (start : ℚ)
    (hid : ∀ l ∈ book, ∀ r ∈ l.orders, r.id ≠ order.id)
    (hcum : acc.orderCumulativeFilled = start + (acc.trades.map Trade.size).sum)
    (hw : filledWritesFor order.id acc.writes = cumFrom start (acc.trades.map Trade.size)) :
    filledWritesFor order.id (matchLevels cross order book acc).2.writes =
      cumFrom start ((matchLevels cross order book acc).2.trades.map Trade.size) := by
  induction book generalizing acc with
  | nil => simpa [matchLevels] using hw
  | cons l rest ih =>
    by_cases h0 : acc.remainingSize = 0
    · rw [matchLevels_of_remaining_zero _ _ _ _ h0]
      exact hw
    · by_cases hc : cross l.price
      · simp only [matchLevels, if_neg h0, if_pos hc]
        apply ih _ (fun lvl hlvl => hid lvl (List.mem_cons_of_mem l hlvl))
        · -- the cumulative-filled invariant survives the level's queue loop
          exact matchQueue_cum_invariant order l.price l.orders acc start hcum
        · exact matchQueue_filledWrites order l.price l.orders acc start
            (hid l (List.mem_cons_self l rest)) hcum hw
      · simp only [matchLevels, if_neg h0, if_neg hc]
        exact hw

lemma keptLevel_mono {ws ws' : List StorageWrite} (hsub : ∀ w ∈ ws, w ∈ ws')
    {l l' : OrderBookEntry} (h : keptLevel ws l l') : keptLevel ws' l l' :=
  ⟨h.1, h.2.imp fun _ _ ho => keptOrder_mono hsub ho⟩

lemma sortOrdersByTime_eq_self {l : List Order} (h : List.Pairwise timeLE l) :
    sortOrdersByTime l = l :=
  List.Sorted.insertionSort_eq h

lemma getOrderBookWithPrioritySort_eq_self {book : List OrderBookEntry}
    (h : bookTimeSorted book) : getOrderBookWithPrioritySort book = book := by
  unfold getOrderBookWithPrioritySort
  induction book with
  | nil => rfl
  | cons l rest ih =>
    simp only [List.map_cons]
    rw [sortOrdersByTime_eq_self (h l (List.mem_cons_self l rest)),
      ih fun lv hlv => h lv (List.mem_cons_of_mem l hlv)]

lemma getOrderBookWithPrioritySort_price_map (book : List OrderBookEntry) :
    (getOrderBookWithPrioritySort book).map OrderBookEntry.price =
      book.map OrderBookEntry.price := by
  unfold getOrderBookWithPrioritySort
  rw [List.map_map]
  rfl

lemma pushToLevel_price_map (order : Order) (book : List OrderBookEntry) :
    (pushToLevel order book).map OrderBookEntry.price = book.map OrderBookEntry.price := by
  induction book with
  | nil => rfl
  | cons l rest ih =>
    by_cases h : l.price = order.price
    · simp [pushToLevel, h]
    · simp [pushToLevel, h, ih]

lemma yesBookSorted_transfer {b1 b2 : List OrderBookEntry}
    (h : b1.map OrderBookEntry.price = b2.map OrderBookEntry.price)
    (hp : yesBookSorted b1) : yesBookSorted b2 := by
  have h1 : List.Pairwise (fun a b : ℚ => b ≤ a) (b1.map OrderBookEntry.price) :=
    List.pairwise_map.mpr hp
  rw [h] at h1
  exact (List.pairwise_map (f := OrderBookEntry.price)).mp h1

lemma noBookSorted_transfer {b1 b2 : List OrderBookEntry}
    (h : b1.map OrderBookEntry.price = b2.map OrderBookEntry.price)
    (hp : noBookSorted b1) : noBookSorted b2 := by
  have h1 : List.Pairwise (fun a b : ℚ => a ≤ b) (b1.map OrderBookEntry.price) :=
    List.pairwise_map.mpr hp
  rw [h] at h1
  exact (List.pairwise_map (f := OrderBookEntry.price)).mp h1

lemma sortBookLevels_yes_sorted (book : List OrderBookEntry) :
    yesBookSorted (sortBookLevels .YES book) :=
  List.sorted_insertionSort priceDescLE book

lemma sortBookLevels_no_sorted (book : List OrderBookEntry) :
    noBookSorted (sortBookLevels .NO book) :=
  List.sorted_insertionSort priceAscLE book

lemma addToOrderBookSide_yes_sorted (order : Order) (hside : order.side = .YES)
    {book : List OrderBookEntry} (h : yesBookSorted book) :
    yesBookSorted (addToOrderBookSide order book) := by
  unfold addToOrderBookSide
  split
  · exact yesBookSorted_transfer (pushToLevel_price_map order book).symm h
  · refine yesBookSorted_transfer (pushToLevel_price_map order _).symm ?_
    rw [hside]
    exact sortBookLevels_yes_sorted _

lemma addToOrderBookSide_no_sorted (order : Order) (hside : order.side = .NO)
    {book : List OrderBookEntry} (h : noBookSorted book) :
    noBookSorted (addToOrderBookSide order book) := by
  unfold addToOrderBookSide
  split
  · exact noBookSorted_transfer (pushToLevel_price_map order book).symm h
  · refine noBookSorted_transfer (pushToLevel_price_map order _).symm ?_
    rw [hside]
    exact sortBookLevels_no_sorted _

lemma addToOrderBook_booksSorted {st : BookPair} (order : Order) (h : booksSorted st) :
    booksSorted (addToOrderBook st order) := by
  cases hs : order.side
  · simp only [addToOrderBook, hs, if_pos rfl]
    exact ⟨addToOrderBookSide_yes_sorted order hs h.1, h.2⟩
  · have : ¬ order.side = Side.YES := by rw [hs]; intro hc; cases hc
    simp only [addToOrderBook, if_neg this]
    exact ⟨h.1, addToOrderBookSide_no_sorted order hs h.2⟩

lemma foldl_addToOrderBook_booksSorted (orders : List Order) :
    ∀ st : BookPair, booksSorted st → booksSorted (orders.foldl addToOrderBook st) := by
  induction orders with
  | nil => intro st h; exact h
  | cons o rest ih => intro st h; exact ih _ (addToOrderBook_booksSorted o h)

@[simp] lemma oppositeBookOf_setOppositeBook (st : BookPair) (s : Side)
    (book : List OrderBookEntry) :
    oppositeBookOf (setOppositeBook st s book) s = book := by
  cases s <;> rfl

@[simp] lemma ownBookOf_setOppositeBook (st : BookPair) (s : Side)
    (book : List OrderBookEntry) :
    ownBookOf (setOppositeBook st s book) s = ownBookOf st s := by
  cases s <;> rfl

lemma setOppositeBook_self (st : BookPair) (s : Side) :
    setOppositeBook st s (oppositeBookOf st s) = st := by
  cases s <;> rfl

lemma oppositeBookOf_addToOrderBook (st : BookPair) (order : Order) :
    oppositeBookOf (addToOrderBook st order) order.side = oppositeBookOf st order.side := by
  cases hs : order.side
  · simp [addToOrderBook, oppositeBookOf, hs]
  · have : ¬ order.side = Side.YES := by rw [hs]; intro hc; cases hc
    simp [addToOrderBook, oppositeBookOf, if_neg this, hs]

lemma mem_bookOrderIds_iff (book : List OrderBookEntry) (i : Nat) :
    i ∈ bookOrderIds book ↔ ∃ l ∈ book, ∃ r ∈ l.orders, r.id = i := by
  unfold bookOrderIds
  constructor
  · intro h
    rcases List.mem_flatten.mp h with ⟨q, hq, hiq⟩
    rcases List.mem_map.mp hq with ⟨l, hl, rfl⟩
    rcases List.mem_map.mp hiq with ⟨r, hr, rfl⟩
    exact ⟨l, hl, r, hr, rfl⟩
  · rintro ⟨l, hl, r, hr, rfl⟩
    exact List.mem_flatten.mpr
      ⟨l.orders.map Order.id, List.mem_map.mpr ⟨l, hl, rfl⟩, List.mem_map.mpr ⟨r, hr, rfl⟩⟩

lemma mem_bookOrderIds_timeSorted_iff (book : List OrderBookEntry) (i : Nat) :
    i ∈ bookOrderIds (getOrderBookWithPrioritySort book) ↔ i ∈ bookOrderIds book := by
  rw [mem_bookOrderIds_iff, mem_bookOrderIds_iff]
  constructor
  · rintro ⟨l, hl, r, hr, rfl⟩
    rcases List.mem_map.mp hl with ⟨l0, hl0, rfl⟩
    exact ⟨l0, hl0, r, (List.perm_insertionSort timeLE l0.orders).mem_iff.mp hr, rfl⟩
  · rintro ⟨l, hl, r, hr, rfl⟩
    exact ⟨_, List.mem_map.mpr ⟨l, hl, rfl⟩, r,
      (List.perm_insertionSort timeLE l.orders).mem_iff.mpr hr, rfl⟩

lemma processOrder_fok_rejected (st : BookPair) (o : Order)
    (h : o.otype = .FOK ∧
      ¬ canFillOrderCompletely o (getOrderBookWithPrioritySort (oppositeBookOf st o.side))) :
    processOrder st o =
      { state := setOppositeBook st o.side (getOrderBookWithPrioritySort (oppositeBookOf st o.side))
        result :=
          { order := { o with status := .CANCELLED }
            trades := []
            rejected := true
            rejectReason := some fokRejectReason }
        writes := [.updateOrderStatus o.id .CANCELLED] } := by
  simp only [processOrder]
  rw [if_pos h]

lemma processOrder_trades_eq (st : BookPair) (o : Order)
    (h : ¬ (o.otype = .FOK ∧
      ¬ canFillOrderCompletely o (getOrderBookWithPrioritySort (oppositeBookOf st o.side)))) :
    (processOrder st o).result.trades = (matchLoopResult st o).2.trades := by
  simp only [processOrder]
  rw [if_neg h]

lemma processOrder_order_eq (st : BookPair) (o : Order)
    (h : ¬ (o.otype = .FOK ∧
      ¬ canFillOrderCompletely o (getOrderBookWithPrioritySort (oppositeBookOf st o.side)))) :
    (processOrder st o).result.order =
      { o with status := finalStatus o (matchLoopResult st o).2.remainingSize,
               filled := (matchLoopResult st o).2.orderCumulativeFilled } := by
  simp only [processOrder]
  rw [if_neg h]

lemma processOrder_rejected_eq (st : BookPair) (o : Order)
    (h : ¬ (o.otype = .FOK ∧
      ¬ canFillOrderCompletely o (getOrderBookWithPrioritySort (oppositeBookOf st o.side)))) :
    (processOrder st o).result.rejected = false := by
  simp only [processOrder]
  rw [if_neg h]

lemma processOrder_state_eq (st : BookPair) (o : Order)
    (h : ¬ (o.otype = .FOK ∧
      ¬ canFillOrderCompletely o (getOrderBookWithPrioritySort (oppositeBookOf st o.side)))) :
    (processOrder st o).state =
      (if (matchLoopResult st o).2.remainingSize ≠ 0 ∧ o.otype = .LIMIT ∧
          finalStatus o (matchLoopResult st o).2.remainingSize ≠ .CANCELLED then
        addToOrderBook (setOppositeBook st o.side (matchLoopResult st o).1)
          { o with status := finalStatus o (matchLoopResult st o).2.remainingSize,
                   filled := (matchLoopResult st o).2.orderCumulativeFilled }
      else setOppositeBook st o.side (matchLoopResult st o).1) := by
  simp only [processOrder]
  rw [if_neg h]

lemma processOrder_writes_eq (st : BookPair) (o : Order)
    (h : ¬ (o.otype = .FOK ∧
      ¬ canFillOrderCompletely o (getOrderBookWithPrioritySort (oppositeBookOf st o.side)))) :
    (processOrder st o).writes =
      (matchLoopResult st o).2.writes ++
        [.updateOrderStatus o.id (finalStatus o (matchLoopResult st o).2.remainingSize),
         updateMarketPricesWrite o.marketId (processOrder st o).state] := by
  conv_lhs => simp only [processOrder]
  rw [processOrder_state_eq st o h]
  rw [if_neg h]

lemma processOrder_oppositeBook_eq (st : BookPair) (o : Order)
    (h : ¬ (o.otype = .FOK ∧
      ¬ canFillOrderCompletely o (getOrderBookWithPrioritySort (oppositeBookOf st o.side)))) :
    oppositeBookOf (processOrder st o).state o.side = (matchLoopResult st o).1 := by
  rw [processOrder_state_eq st o h]
  split
  · exact (oppositeBookOf_addToOrderBook _ _).trans (oppositeBookOf_setOppositeBook _ _ _)
  · exact oppositeBookOf_setOppositeBook _ _ _

lemma matchLoopResult_eq_limit (st : BookPair) (o : Order) (h : ¬ o.otype = .MARKET) :
    matchLoopResult st o =
      processLimitTypeOrder o
        (getOrderBookWithPrioritySort (oppositeBookOf st o.side)) o.size [] := by
  simp [matchLoopResult, h]

lemma matchLoopResult_eq_market (st : BookPair) (o : Order) (h : o.otype = .MARKET) :
    matchLoopResult st o =
      processMarketOrder o
        (getOrderBookWithPrioritySort (oppositeBookOf st o.side)) o.size [] := by
  simp [matchLoopResult, h]

lemma matchLoopResult_of_size_zero (st : BookPair) (o : Order) (h : o.size = 0) :
    matchLoopResult st o =
      (getOrderBookWithPrioritySort (oppositeBookOf st o.side),
       { remainingSize := o.size, orderCumulativeFilled := o.filled,
         trades := [], writes := [] }) := by
  unfold matchLoopResult processMarketOrder processLimitTypeOrder
  split <;> exact matchLevels_of_remaining_zero _ _ _ _ h

lemma matchLoopResult_trades_shape (st : BookPair) (o : Order) :
    ∀ t ∈ (matchLoopResult st o).2.trades,
      ∃ l ∈ getOrderBookWithPrioritySort (oppositeBookOf st o.side), ∃ r ∈ l.orders, ∃ ms,
        t = executeTrade o r ms l.price := by
  intro t ht
  unfold matchLoopResult at ht
  split at ht
  · unfold processMarketOrder at ht
    rcases matchLevels_trades_shape _ _ _ _ t ht with h | h
    · simp at h
    · exact h
  · unfold processLimitTypeOrder at ht
    rcases matchLevels_trades_shape _ _ _ _ t ht with h | h
    · simp at h
    · exact h

lemma finalStatus_limit_ne_cancelled {o : Order} (h : o.otype = .LIMIT) (rem : ℚ) :
    finalStatus o rem ≠ .CANCELLED := by
  simp only [finalStatus, determineOrderStatus, h]
  split_ifs <;> simp_all

lemma finalStatus_of_remaining_zero (o : Order) : finalStatus o 0 = .FILLED := by
  simp [finalStatus, determineOrderStatus]

lemma finalStatus_ioc (o : Order) (h : o.otype = .IOC) (rem : ℚ) :
    finalStatus o rem =
      (if rem = 0 then .FILLED
       else if 0 < o.size - rem then .PARTIAL else .CANCELLED) := by
  by_cases hz : rem = 0
  · rw [hz, finalStatus_of_remaining_zero, if_pos rfl]
  · simp [finalStatus, h, hz]

lemma crossMono_of_sorted (st : BookPair) (o : Order) (hsorted : booksSorted st) :
    List.Pairwise (fun a b : OrderBookEntry =>
        canMatch o a.price = false → canMatch o b.price = false)
      (getOrderBookWithPrioritySort (oppositeBookOf st o.side)) := by
  by_cases hs : o.side = .YES
  · have hp : noBookSorted (oppositeBookOf st o.side) := by
      simp only [oppositeBookOf, if_pos hs]; exact hsorted.2
    have hp2 : noBookSorted (getOrderBookWithPrioritySort (oppositeBookOf st o.side)) :=
      noBookSorted_transfer (getOrderBookWithPrioritySort_price_map _).symm hp
    refine hp2.imp fun hab => ?_
    intro hfa
    simp only [canMatch, if_pos hs, decide_eq_false_iff_not] at hfa ⊢
    intro hb
    exact hfa (le_trans hab hb)
  · have hp : yesBookSorted (oppositeBookOf st o.side) := by
      simp only [oppositeBookOf, if_neg hs]; exact hsorted.1
    have hp2 : yesBookSorted (getOrderBookWithPrioritySort (oppositeBookOf st o.side)) :=
      yesBookSorted_transfer (getOrderBookWithPrioritySort_price_map _).symm hp
    refine hp2.imp fun hab => ?_
    intro hfa
    simp only [canMatch, if_neg hs, decide_eq_false_iff_not] at hfa ⊢
    intro hb
    exact hfa (le_trans hb hab)

lemma mem_sortBookLevels {side : Side} {book : List OrderBookEntry} {l : OrderBookEntry} :
    l ∈ sortBookLevels side book ↔ l ∈ book := by
  unfold sortBookLevels
  split
  · exact (List.perm_insertionSort priceDescLE book).mem_iff
  · exact (List.perm_insertionSort priceAscLE book).mem_iff

lemma pushToLevel_queues (order : Order) (book : List OrderBookEntry) :
    ∀ l ∈ pushToLevel order book,
      l.orders ∈ book.map OrderBookEntry.orders ∨
      ∃ q ∈ book.map OrderBookEntry.orders, l.orders = q ++ [order] := by
  induction book with
  | nil => intro l hl; simp [pushToLevel] at hl
  | cons b rest ih =>
    intro l hl
    by_cases h : b.price = order.price
    · simp only [pushToLevel, if_pos h] at hl
      rcases List.mem_cons.mp hl with rfl | hl
      · exact Or.inr ⟨b.orders, by simp, rfl⟩
      · refine Or.inl ?_
        simp only [List.map_cons, List.mem_cons]
        exact Or.inr (List.mem_map.mpr ⟨l, hl, rfl⟩)
    · simp only [pushToLevel, if_neg h] at hl
      rcases List.mem_cons.mp hl with rfl | hl
      · exact Or.inl (by simp)
      · rcases ih l hl with h1 | ⟨q, hq, he⟩
        · refine Or.inl ?_
          simp only [List.map_cons, List.mem_cons]
          exact Or.inr h1
        · refine Or.inr ⟨q, ?_, he⟩
          simp only [List.map_cons, List.mem_cons]
          exact Or.inr hq

lemma addToOrderBookSide_queues (order : Order) (book : List OrderBookEntry) :
    ∀ l ∈ addToOrderBookSide order book,
      l.orders ∈ book.map OrderBookEntry.orders ∨ l.orders = [] ∨
      ∃ q, (q ∈ book.map OrderBookEntry.orders ∨ q = []) ∧ l.orders = q ++ [order] := by
  intro l hl
  unfold addToOrderBookSide at hl
  split at hl
  · rcases pushToLevel_queues order book l hl with h | ⟨q, hq, he⟩
    · exact Or.inl h
    · exact Or.inr (Or.inr ⟨q, Or.inl hq, he⟩)
  · rcases pushToLevel_queues order _ l hl with h | ⟨q, hq, he⟩
    · rcases List.mem_map.mp h with ⟨lv, hlv, horder⟩
      rw [mem_sortBookLevels] at hlv
      rcases List.mem_append.mp hlv with h1 | h2
      · exact Or.inl (horder ▸ List.mem_map.mpr ⟨lv, h1, rfl⟩)
      · simp only [List.mem_singleton] at h2
        subst h2
        exact Or.inr (Or.inl horder.symm)
    · rcases List.mem_map.mp hq with ⟨lv, hlv, horder⟩
      rw [mem_sortBookLevels] at hlv
      rcases List.mem_append.mp hlv with h1 | h2
      · exact Or.inr (Or.inr ⟨q, Or.inl (horder ▸ List.mem_map.mpr ⟨lv, h1, rfl⟩), he⟩)
      · simp only [List.mem_singleton] at h2
        subst h2
        exact Or.inr (Or.inr ⟨q, Or.inr horder.symm, he⟩)

lemma mem_orders_addToOrderBookSide {order : Order} {book : List OrderBookEntry}
    {lv : OrderBookEntry} {x : Order}
    (hlv : lv ∈ addToOrderBookSide order book) (hx : x ∈ lv.orders) :
    (∃ lv0 ∈ book, x ∈ lv0.orders) ∨ x = order := by
  rcases addToOrderBookSide_queues order book lv hlv with h | h | ⟨q, hq, he⟩
  · rcases List.mem_map.mp h with ⟨lv0, hlv0, horders⟩
    exact Or.inl ⟨lv0, hlv0, by rw [horders]; exact hx⟩
  · rw [h] at hx
    simp at hx
  · rw [he] at hx
    rcases List.mem_append.mp hx with hxq | hxo
    · rcases hq with hq | rfl
      · rcases List.mem_map.mp hq with ⟨lv0, hlv0, horders⟩
        exact Or.inl ⟨lv0, hlv0, by rw [horders]; exact hxq⟩
      · simp at hxq
    · simp only [List.mem_singleton] at hxo
      exact Or.inr hxo

lemma addToOrderBookSide_goodBook {m : Nat} (order : Order) {book : List OrderBookEntry}
    (horder : order.status = .PENDING ∧ order.marketId = m)
    (hb : goodBook m book)
    (hge : ∀ lv ∈ book, ∀ x ∈ lv.orders, order.createdAt ≤ x.createdAt) :
    goodBook m (addToOrderBookSide order book) := by
  intro l hl
  rcases addToOrderBookSide_queues order book l hl with h | h | ⟨q, hq, he⟩
  · rcases List.mem_map.mp h with ⟨lv0, hlv0, horders⟩
    have hlv := hb lv0 hlv0
    exact ⟨horders ▸ hlv.1, horders ▸ hlv.2⟩
  · rw [h]
    exact ⟨List.Pairwise.nil, by simp⟩
  · have hqgood : List.Pairwise timeDescLE q ∧
        (∀ x ∈ q, x.status = .PENDING ∧ x.marketId = m) ∧
        (∀ x ∈ q, order.createdAt ≤ x.createdAt) := by
      rcases hq with hq | rfl
      · rcases List.mem_map.mp hq with ⟨lv0, hlv0, horders⟩
        have hlv := hb lv0 hlv0
        exact ⟨horders ▸ hlv.1, horders ▸ hlv.2, horders ▸ hge lv0 hlv0⟩
      · exact ⟨List.Pairwise.nil, by simp, by simp⟩
    constructor
    · rw [he]
      refine List.pairwise_append.mpr ⟨hqgood.1, List.pairwise_singleton _ _, ?_⟩
      intro a ha b hb'
      simp only [List.mem_singleton] at hb'
      subst hb'
      exact hqgood.2.2 a ha
    · intro x hx
      rw [he] at hx
      rcases List.mem_append.mp hx with hxq | hxo
      · exact hqgood.2.1 x hxq
      · simp only [List.mem_singleton] at hxo
        subst hxo
        exact horder

lemma addToOrderBook_goodBook {m : Nat} {st : BookPair} (order : Order)
    (horder : order.status = .PENDING ∧ order.marketId = m)
    (hst : goodBook m st.yes ∧ goodBook m st.no)
    (hge : ∀ lv ∈ st.yes ++ st.no, ∀ x ∈ lv.orders, order.createdAt ≤ x.createdAt) :
    goodBook m (addToOrderBook st order).yes ∧ goodBook m (addToOrderBook st order).no := by
  have hgy : ∀ lv ∈ st.yes, ∀ x ∈ lv.orders, order.createdAt ≤ x.createdAt :=
    fun lv hlv => hge lv (List.mem_append.mpr (Or.inl hlv))
  have hgn : ∀ lv ∈ st.no, ∀ x ∈ lv.orders, order.createdAt ≤ x.createdAt :=
    fun lv hlv => hge lv (List.mem_append.mpr (Or.inr hlv))
  by_cases hs : order.side = .YES
  · simp only [addToOrderBook, if_pos hs]
    exact ⟨addToOrderBookSide_goodBook order horder hst.1 hgy, hst.2⟩
  · simp only [addToOrderBook, if_neg hs]
    exact ⟨hst.1, addToOrderBookSide_goodBook order horder hst.2 hgn⟩

lemma mem_orders_addToOrderBook {st : BookPair} {order : Order}
    {lv : OrderBookEntry} {x : Order}
    (hlv : lv ∈ (addToOrderBook st order).yes ++ (addToOrderBook st order).no)
    (hx : x ∈ lv.orders) :
    (∃ lv0 ∈ st.yes ++ st.no, x ∈ lv0.orders) ∨ x = order := by
  by_cases hs : order.side = .YES
  · simp only [addToOrderBook, if_pos hs] at hlv
    rcases List.mem_append.mp hlv with h1 | h2
    · rcases mem_orders_addToOrderBookSide h1 hx with ⟨lv0, hlv0, hx0⟩ | h
      · exact Or.inl ⟨lv0, List.mem_append.mpr (Or.inl hlv0), hx0⟩
      · exact Or.inr h
    · exact Or.inl ⟨lv, List.mem_append.mpr (Or.inr h2), hx⟩
  · simp only [addToOrderBook, if_neg hs] at hlv
    rcases List.mem_append.mp hlv with h1 | h2
    · exact Or.inl ⟨lv, List.mem_append.mpr (Or.inl h1), hx⟩
    · rcases mem_orders_addToOrderBookSide h2 hx with ⟨lv0, hlv0, hx0⟩ | h
      · exact Or.inl ⟨lv0, List.mem_append.mpr (Or.inr hlv0), hx0⟩
      · exact Or.inr h

lemma foldl_addToOrderBook_goodBook (m : Nat) :
    ∀ (l : List Order) (st : BookPair),
      (∀ y ∈ l, y.status = .PENDING ∧ y.marketId = m) →
      List.Pairwise timeDescLE l →
      goodBook m st.yes ∧ goodBook m st.no →
      (∀ lv ∈ st.yes ++ st.no, ∀ x ∈ lv.orders, ∀ y ∈ l, y.createdAt ≤ x.createdAt) →
      goodBook m (l.foldl addToOrderBook st).yes ∧
        goodBook m (l.foldl addToOrderBook st).no := by
  intro l
  induction l with
  | nil => intro st _ _ hst _; exact hst
  | cons y rest ih =>
    intro st hl hsort hst hge
    have hy := hl y (List.mem_cons_self y rest)
    have hyge : ∀ lv ∈ st.yes ++ st.no, ∀ x ∈ lv.orders, y.createdAt ≤ x.createdAt :=
      fun lv hlv x hx => hge lv hlv x hx y (List.mem_cons_self y rest)
    apply ih (addToOrderBook st y)
    · exact fun z hz => hl z (List.mem_cons_of_mem y hz)
    · exact (List.pairwise_cons.mp hsort).2
    · exact addToOrderBook_goodBook y hy hst hyge
    · intro lv hlv x hx z hz
      rcases mem_orders_addToOrderBook hlv hx with ⟨lv0, hlv0, hx0⟩ | rfl
      · exact hge lv0 hlv0 x hx0 z (List.mem_cons_of_mem y hz)
      · exact (List.pairwise_cons.mp hsort).1 z hz

/-- C4 (counterexample): inserting NO limit orders at prices 0.3 then 0.5
yields a NO book whose price sequence is `[0.3, 0.5]` — strictly increasing,
so the NO side is not sorted descending (non-increasing) by price as the
claim states. -/
theorem claim4_counterexample :
    (c4Book.no.map OrderBookEntry.price = [3 / 10, 1 / 2]) ∧
    ¬ List.Pairwise (fun a b : OrderBookEntry => b.price ≤ a.price) c4Book.no := by
  with_unfolding_all decide

/-- C4 (amended): after any sequence of insertions starting from the empty
book pair, the YES book is non-increasing in price (descending) and the NO
book is non-DEcreasing in price (ascending, best ask first) — the code and
its test sort the NO side ascending, not descending. -/
theorem claim4_amended (orders : List Order) :
    booksSorted (orders.foldl addToOrderBook emptyBookPair) :=
  foldl_addToOrderBook_booksSorted orders emptyBookPair ⟨List.Pairwise.nil, List.Pairwise.nil⟩

/-- C5: for every FOK order whose pre-scan of the (time-sorted) opposite book
finds less than the incoming size achievable, `processOrder` cancels
atomically: `rejected = true` with reason "FOK order cannot be completely
filled", an empty trade list, status CANCELLED, and the order books are left
unchanged (given each opposite-level queue is in creation-time order, which
insertion order maintains, the visible in-place time sort is the identity). -/
theorem claim5_fok_reject (st : BookPair) (o : Order)
    (hfok : o.otype = .FOK)
    (hcant : ¬ canFillOrderCompletely o
      (getOrderBookWithPrioritySort (oppositeBookOf st o.side)))
    (htime : bookTimeSorted (oppositeBookOf st o.side)) :
    (processOrder st o).result.rejected = true ∧
    (processOrder st o).result.rejectReason = some fokRejectReason ∧
    (processOrder st o).result.trades = [] ∧
    (processOrder st o).result.order.status = .CANCELLED ∧
    (processOrder st o).state = st := by
  rw [processOrder_fok_rejected st o ⟨hfok, hcant⟩]
  refine ⟨rfl, rfl, rfl, rfl, ?_⟩
  show setOppositeBook st o.side (getOrderBookWithPrioritySort (oppositeBookOf st o.side)) = st
  rw [getOrderBookWithPrioritySort_eq_self htime]
  exact setOppositeBook_self st o.side

/-- C5 (witness): the concrete FOK order for 100 shares against a book with
only 50 available is rejected with the stated reason and no state change. -/
theorem claim5_fok_reject_witness :
    c5Incoming.otype = .FOK ∧
    ¬ canFillOrderCompletely c5Incoming
      (getOrderBookWithPrioritySort (oppositeBookOf c5Book c5Incoming.side)) ∧
    bookTimeSorted (oppositeBookOf c5Book c5Incoming.side) ∧
    ((processOrder c5Book c5Incoming).result.rejected = true ∧
     (processOrder c5Book c5Incoming).result.rejectReason = some fokRejectReason ∧
     (processOrder c5Book c5Incoming).result.trades = [] ∧
     (processOrder c5Book c5Incoming).result.order.status = .CANCELLED ∧
     (processOrder c5Book c5Incoming).state = c5Book) :=
  ⟨rfl, by with_unfolding_all decide, by with_unfolding_all decide,
   claim5_fok_reject c5Book c5Incoming rfl (by with_unfolding_all decide)
     (by with_unfolding_all decide)⟩

/-- C8 (counterexample): two PENDING NO orders at the same price with
creation times 1 < 2 produce the queue `[1, 2]` when submitted in order, but
warm-loading them from persistence rebuilds the queue as `[2, 1]` (the fetch
sorts `createdAt` descending), so the reloaded snapshot differs from the
pre-unload snapshot and the queue is not in ascending creation-time order. -/
theorem claim8_counterexample :
    c8Reloaded ≠ c8PreBook ∧
    (c8Reloaded.no.map fun l => l.orders.map Order.id) = [[2, 1]] ∧
    (c8PreBook.no.map fun l => l.orders.map Order.id) = [[1, 2]] ∧
    c8Order1.createdAt < c8Order2.createdAt := by
  with_unfolding_all decide

/-- C8 (amended): warm-loading a market from persistence reconstructs a book
whose level queues hold only PENDING orders of that market, in DESCENDING
creation-time order (newest first) — the reverse of the claimed ascending
time-priority order, because `getActiveMarketOrders` fetches newest-first
and insertion appends. -/
theorem claim8_amended (marketId : Nat) (persisted : List Order) :
    goodBook marketId (loadOrderBook emptyBookPair marketId persisted).yes ∧
    goodBook marketId (loadOrderBook emptyBookPair marketId persisted).no := by
  unfold loadOrderBook
  apply foldl_addToOrderBook_goodBook
  · intro y hy
    unfold getActiveMarketOrders at hy
    rw [(List.perm_insertionSort timeDescLE _).mem_iff] at hy
    have hp := List.of_mem_filter hy
    simp only [Bool.and_eq_true, decide_eq_true_eq] at hp
    exact ⟨hp.2, hp.1⟩
  · exact List.sorted_insertionSort timeDescLE _
  · constructor <;> intro l hl <;> simp [emptyBookPair] at hl
  · intro lv hlv
    simp [emptyBookPair] at hlv

/-- C9 (counterexample): reducing an existing position of 5 shares at average
0.5 by −5 shares makes the combined share count exactly zero, and the upsert
still performs the weighted-average division — the result is non-finite
(`none`), neither the old average (skip) nor a reset to 0. -/
theorem claim9_counterexample :
    (updateOrCreatePosition (some (5, 1 / 2)) (-5) (3 / 5)).avgPrice = none ∧
    (updateOrCreatePosition (some (5, 1 / 2)) (-5) (3 / 5)).avgPrice ≠ some (1 / 2) ∧
    (updateOrCreatePosition (some (5, 1 / 2)) (-5) (3 / 5)).avgPrice ≠ some 0 := by
  with_unfolding_all decide

/-- C9 (amended): the position upsert recomputes the weighted average
unconditionally, dividing by the combined share count: when existing + delta
is exactly zero the division is by zero (a non-finite JavaScript number,
`none` here); otherwise it stores the weighted mean; shares always become
existing + delta. -/
theorem claim9_amended (existingShares existingAvg shares avgPrice : ℚ) :
    (existingShares + shares = 0 →
      (updateOrCreatePosition (some (existingShares, existingAvg)) shares avgPrice).avgPrice
        = none) ∧
    (existingShares + shares ≠ 0 →
      (updateOrCreatePosition (some (existingShares, existingAvg)) shares avgPrice).avgPrice
        = some ((existingShares * existingAvg + shares * avgPrice) /
            (existingShares + shares))) ∧
    (updateOrCreatePosition (some (existingShares, existingAvg)) shares avgPrice).shares
      = existingShares + shares := by
  refine ⟨fun h => ?_, fun h => ?_, rfl⟩
  · simp [updateOrCreatePosition, h]
  · simp [updateOrCreatePosition, h]

/-- C9 (witness): the amended theorem applied at the concrete reducing fill
5 + (−5) = 0, where the upsert's division is by zero. -/
theorem claim9_amended_witness :
    (5 + (-5) : ℚ) = 0 ∧
    (updateOrCreatePosition (some (5, 1 / 2)) (-5) (3 / 5)).avgPrice = none :=
  ⟨by with_unfolding_all decide,
   (claim9_amended 5 (1 / 2) (-5) (3 / 5)).1 (by with_unfolding_all decide)⟩

/-- C1 (counterexample): when an incoming NO order (id 2, user 20) matches a
resting YES order (id 1, user 10), the produced trade records the RESTING
order as the buyer (`buy_order_id = 1`, `buyer_id = 10`) and the incoming
order as the seller, contradicting the claim that the incoming order is
always the buyer; the trade's side is still the incoming side NO. -/
theorem claim1_counterexample :
    ((processOrder c1Book c1Incoming).result.trades.map fun t =>
        (t.buyOrderId, t.sellOrderId, t.buyerId, t.sellerId, t.side)) =
      [(1, 2, 10, 20, Side.NO)] ∧
    c1Incoming.id = 2 ∧ c1Incoming.side = .NO := by
  with_unfolding_all decide

/-- C1 (amended): every trade produced by `processOrder` records the side of
the incoming order; when the incoming side is YES, the incoming order is the
buyer and a resting book order the seller; when the incoming side is NO, the
attribution is REVERSED: a resting book order is recorded as the buyer and
the incoming NO order as the seller. -/
theorem claim1_amended (st : BookPair) (o : Order) :
    ∀ t ∈ (processOrder st o).result.trades,
      t.side = o.side ∧
      (o.side = .YES →
        t.buyOrderId = o.id ∧ t.buyerId = o.userId ∧
        t.sellOrderId ∈ bookOrderIds (oppositeBookOf st o.side)) ∧
      (o.side = .NO →
        t.sellOrderId = o.id ∧ t.sellerId = o.userId ∧
        t.buyOrderId ∈ bookOrderIds (oppositeBookOf st o.side)) := by
  intro t ht
  by_cases hrej : (o.otype = .FOK ∧ ¬ canFillOrderCompletely o
      (getOrderBookWithPrioritySort (oppositeBookOf st o.side)))
  · rw [processOrder_fok_rejected st o hrej] at ht
    simp at ht
  · rw [processOrder_trades_eq st o hrej] at ht
    obtain ⟨l, hl, r, hr, ms, rfl⟩ := matchLoopResult_trades_shape st o _ ht
    have hmem : r.id ∈ bookOrderIds (oppositeBookOf st o.side) :=
      (mem_bookOrderIds_timeSorted_iff _ _).mp ((mem_bookOrderIds_iff _ _).mpr ⟨l, hl, r, hr, rfl⟩)
    refine ⟨rfl, fun hy => ?_, fun hn => ?_⟩
    · refine ⟨?_, ?_, ?_⟩
      · simp [executeTrade, hy]
      · simp [executeTrade, hy]
      · show (if o.side = Side.YES then r.id else o.id) ∈
          bookOrderIds (oppositeBookOf st o.side)
        rw [if_pos hy]
        exact hmem
    · have hny : ¬ o.side = Side.YES := by rw [hn]; intro hc; cases hc
      refine ⟨?_, ?_, ?_⟩
      · simp [executeTrade, hny]
      · simp [executeTrade, hny]
      · show (if o.side = Side.YES then o.id else r.id) ∈
          bookOrderIds (oppositeBookOf st o.side)
        rw [if_neg hny]
        exact hmem

/-- C1 (witness): the amended attribution checked on the concrete NO-aggressor
trade of `claim1_counterexample`. -/
theorem claim1_amended_witness :
    c1Trade ∈ (processOrder c1Book c1Incoming).result.trades ∧
    (c1Trade.side = c1Incoming.side ∧
     (c1Incoming.side = .YES →
       c1Trade.buyOrderId = c1Incoming.id ∧ c1Trade.buyerId = c1Incoming.userId ∧
       c1Trade.sellOrderId ∈ bookOrderIds (oppositeBookOf c1Book c1Incoming.side)) ∧
     (c1Incoming.side = .NO →
       c1Trade.sellOrderId = c1Incoming.id ∧ c1Trade.sellerId = c1Incoming.userId ∧
       c1Trade.buyOrderId ∈ bookOrderIds (oppositeBookOf c1Book c1Incoming.side))) :=
  ⟨by with_unfolding_all decide,
   claim1_amended c1Book c1Incoming c1Trade (by with_unfolding_all decide)⟩

/-- C2 (counterexample): an incoming YES order exactly fills the resting NO
order (filled = size = 50); the storage write marking it FILLED is performed,
but the order is NOT removed from the in-memory book: after the submission
the NO book still holds it, so a FILLED order is present in a price-level
queue. -/
theorem claim2_counterexample :
    ((processOrder c2Book c2Incoming).state.no.map fun l =>
        l.orders.map fun r => (r.id, r.filled, r.size)) = [[(1, 50, 50)]] ∧
    StorageWrite.updateOrderStatus 1 .FILLED ∈ (processOrder c2Book c2Incoming).writes := by
  with_unfolding_all decide

/-- C2 (amended): a matching step that makes a resting order's filled amount
equal its size persists a FILLED status write for it, but never removes it
from the in-memory order book: after every submission the opposite book
holds exactly the same orders (same ids and sizes, level by level, relative
to the time-sorted book the loop ran on), completed orders remaining in
their queues with filled = size. -/
theorem claim2_amended (st : BookPair) (o : Order) :
    List.Forall₂ (keptLevel (processOrder st o).writes)
      (getOrderBookWithPrioritySort (oppositeBookOf st o.side))
      (oppositeBookOf (processOrder st o).state o.side) := by
  by_cases hrej : (o.otype = .FOK ∧ ¬ canFillOrderCompletely o
      (getOrderBookWithPrioritySort (oppositeBookOf st o.side)))
  · rw [processOrder_fok_rejected st o hrej]
    show List.Forall₂ _ _ (oppositeBookOf (setOppositeBook st o.side _) o.side)
    rw [oppositeBookOf_setOppositeBook]
    exact List.forall₂_same.mpr fun l _ => ⟨rfl, forall₂_keptOrder_refl _ _⟩
  · rw [processOrder_oppositeBook_eq st o hrej, processOrder_writes_eq st o hrej]
    by_cases hmkt : o.otype = .MARKET
    · rw [matchLoopResult_eq_market st o hmkt]
      exact (matchLevels_kept _ o _ _).imp fun _ _ hl =>
        keptLevel_mono (fun w hw => List.mem_append_left _ hw) hl
    · rw [matchLoopResult_eq_limit st o hmkt]
      exact (matchLevels_kept _ o _ _).imp fun _ _ hl =>
        keptLevel_mono (fun w hw => List.mem_append_left _ hw) hl

/-- C3 (counterexample): a NO limit order resting at 0.95 and a subsequent
YES limit order resting at 0.90 leave both books with an unfilled resting
order, and 0.90 + 0.95 = 1.85 > 1, so the claimed non-crossing invariant
top(YES) + top(NO) ≤ 1 fails. -/
theorem claim3_counterexample :
    (c3State2.yes.map OrderBookEntry.price = [9 / 10]) ∧
    (c3State2.no.map OrderBookEntry.price = [19 / 20]) ∧
    (c3State2.yes.map fun l => l.orders.map fun r => (r.filled, r.size)) = [[(0, 10)]] ∧
    (c3State2.no.map fun l => l.orders.map fun r => (r.filled, r.size)) = [[(0, 10)]] ∧
    ¬ (9 / 10 + 19 / 20 ≤ (1 : ℚ)) := by
  with_unfolding_all decide

/-- C3 (amended): the complement-sum bound does not hold; what the crossing
rule guarantees is non-crossing under the code's direct price comparison:
after a LIMIT submission of non-negative size on sorted books that leaves the
order not fully filled, every opposite-book level its limit price crosses
(level price ≤ limit for YES incoming, ≥ limit for NO incoming) has no
available size left — every order in such a level has filled ≥ size. -/
theorem claim3_amended (st : BookPair) (o : Order)
    (hsorted : booksSorted st) (htype : o.otype = .LIMIT) (hsize : 0 ≤ o.size)
    (hrest : (processOrder st o).result.order.status ≠ .FILLED) :
    ∀ l ∈ oppositeBookOf (processOrder st o).state o.side,
      canMatch o l.price = true → ∀ x ∈ l.orders, x.size ≤ x.filled := by
  have hrej : ¬ (o.otype = .FOK ∧ ¬ canFillOrderCompletely o
      (getOrderBookWithPrioritySort (oppositeBookOf st o.side))) := by
    intro hc
    have h1 := hc.1
    rw [htype] at h1
    cases h1
  have hnm : ¬ o.otype = .MARKET := by rw [htype]; intro hc; cases hc
  have hrem : (matchLoopResult st o).2.remainingSize ≠ 0 := by
    intro h0
    apply hrest
    rw [processOrder_order_eq st o hrej]
    show finalStatus o (matchLoopResult st o).2.remainingSize = .FILLED
    rw [h0]
    exact finalStatus_of_remaining_zero o
  rw [processOrder_oppositeBook_eq st o hrej]
  rw [matchLoopResult_eq_limit st o hnm] at hrem ⊢
  exact matchLevels_all_consumed (canMatch o) o _ _ (crossMono_of_sorted st o hsorted)
    hsize hrem

/-- C3 (witness): the amended statement checked on the concrete resting YES
order at 0.90 against the NO book at 0.95 (no crossing level, vacuously no
available size at crossed levels). -/
theorem claim3_amended_witness :
    booksSorted c3State1 ∧ c3Incoming.otype = .LIMIT ∧ (0 : ℚ) ≤ c3Incoming.size ∧
    (processOrder c3State1 c3Incoming).result.order.status ≠ .FILLED ∧
    (∀ l ∈ oppositeBookOf (processOrder c3State1 c3Incoming).state c3Incoming.side,
      canMatch c3Incoming l.price = true → ∀ x ∈ l.orders, x.size ≤ x.filled) :=
  ⟨by with_unfolding_all decide, rfl, by with_unfolding_all decide,
   by with_unfolding_all decide,
   claim3_amended c3State1 c3Incoming (by with_unfolding_all decide) rfl
     (by with_unfolding_all decide) (by with_unfolding_all decide)⟩

/-- C6: an IOC order runs exactly the limit-price crossing-test matching loop
(`processLimitTypeOrder` on the time-sorted opposite book), its remainder is
never inserted into its own side's book, it is never FOK-rejected, and the
returned status is FILLED when fully filled, PARTIAL when something but not
everything filled, and CANCELLED when nothing filled. -/
theorem claim6_ioc (st : BookPair) (o : Order) (h : o.otype = .IOC) :
    (processOrder st o).result.trades =
      (processLimitTypeOrder o (getOrderBookWithPrioritySort (oppositeBookOf st o.side))
        o.size []).2.trades ∧
    ownBookOf (processOrder st o).state o.side = ownBookOf st o.side ∧
    (processOrder st o).result.rejected = false ∧
    (processOrder st o).result.order.status =
      (if (processLimitTypeOrder o (getOrderBookWithPrioritySort (oppositeBookOf st o.side))
            o.size []).2.remainingSize = 0 then OStatus.FILLED
       else if 0 < o.size - (processLimitTypeOrder o
              (getOrderBookWithPrioritySort (oppositeBookOf st o.side))
              o.size []).2.remainingSize
            then OStatus.PARTIAL else OStatus.CANCELLED) := by
  have hrej : ¬ (o.otype = .FOK ∧ ¬ canFillOrderCompletely o
      (getOrderBookWithPrioritySort (oppositeBookOf st o.side))) := by
    intro hc
    have h1 := hc.1
    rw [h] at h1
    cases h1
  have hnm : ¬ o.otype = .MARKET := by rw [h]; intro hc; cases hc
  have hml := matchLoopResult_eq_limit st o hnm
  refine ⟨?_, ?_, ?_, ?_⟩
  · rw [processOrder_trades_eq st o hrej, hml]
  · rw [processOrder_state_eq st o hrej]
    rw [if_neg ?cond]
    · exact ownBookOf_setOppositeBook st o.side _
    case cond =>
      intro hc
      have h1 := hc.2.1
      rw [h] at h1
      cases h1
  · exact processOrder_rejected_eq st o hrej
  · rw [processOrder_order_eq st o hrej]
    show finalStatus o (matchLoopResult st o).2.remainingSize = _
    rw [hml, finalStatus_ioc o h]

/-- C6 (witness): the concrete IOC order for 100 against 50 available runs
the limit loop, is not booked, and ends PARTIAL. -/
theorem claim6_ioc_witness :
    c6Incoming.otype = .IOC ∧
    ((processOrder c6Book c6Incoming).result.trades =
      (processLimitTypeOrder c6Incoming
        (getOrderBookWithPrioritySort (oppositeBookOf c6Book c6Incoming.side))
        c6Incoming.size []).2.trades ∧
     ownBookOf (processOrder c6Book c6Incoming).state c6Incoming.side =
       ownBookOf c6Book c6Incoming.side ∧
     (processOrder c6Book c6Incoming).result.rejected = false ∧
     (processOrder c6Book c6Incoming).result.order.status =
       (if (processLimitTypeOrder c6Incoming
             (getOrderBookWithPrioritySort (oppositeBookOf c6Book c6Incoming.side))
             c6Incoming.size []).2.remainingSize = 0 then OStatus.FILLED
        else if 0 < c6Incoming.size - (processLimitTypeOrder c6Incoming
               (getOrderBookWithPrioritySort (oppositeBookOf c6Book c6Incoming.side))
               c6Incoming.size []).2.remainingSize
             then OStatus.PARTIAL else OStatus.CANCELLED)) ∧
    (processOrder c6Book c6Incoming).result.order.status = .PARTIAL :=
  ⟨rfl, claim6_ioc c6Book c6Incoming rfl, by with_unfolding_all decide⟩

/-- C7: during a single submission the persisted filled totals written for
the incoming order are exactly the running cumulative totals — the order's
filled at submission plus the sum of the sizes of the trades produced so far
(one write per trade, in trade order), for every order type. -/
theorem claim7_cumulative_filled (st : BookPair) (o : Order)
    (hid : o.id ∉ bookOrderIds (oppositeBookOf st o.side)) :
    filledWritesFor o.id (processOrder st o).writes =
      cumFrom o.filled ((processOrder st o).result.trades.map Trade.size) := by
  have hid' : ∀ l ∈ getOrderBookWithPrioritySort (oppositeBookOf st o.side),
      ∀ r ∈ l.orders, r.id ≠ o.id := by
    intro l hl r hr hre
    exact hid ((mem_bookOrderIds_timeSorted_iff _ _).mp
      ((mem_bookOrderIds_iff _ _).mpr ⟨l, hl, r, hr, hre⟩))
  by_cases hrej : (o.otype = .FOK ∧ ¬ canFillOrderCompletely o
      (getOrderBookWithPrioritySort (oppositeBookOf st o.side)))
  · rw [processOrder_fok_rejected st o hrej]
    rfl
  · rw [processOrder_writes_eq st o hrej, processOrder_trades_eq st o hrej,
      filledWritesFor_append]
    have h2 : filledWritesFor o.id
        [StorageWrite.updateOrderStatus o.id
           (finalStatus o (matchLoopResult st o).2.remainingSize),
         updateMarketPricesWrite o.marketId (processOrder st o).state] = [] := rfl
    rw [h2, List.append_nil]
    by_cases hmkt : o.otype = .MARKET
    · rw [matchLoopResult_eq_market st o hmkt]
      exact matchLevels_filledWrites _ o _ _ o.filled hid' (by simp) rfl
    · rw [matchLoopResult_eq_limit st o hmkt]
      exact matchLevels_filledWrites _ o _ _ o.filled hid' (by simp) rfl

/-- C7 (witness): the incoming order of the three-level walk gets the filled
writes 25, 50, 60 — the cumulative totals of its trades 25, 25, 10. -/
theorem claim7_cumulative_filled_witness :
    c7Incoming.id ∉ bookOrderIds (oppositeBookOf c7Book c7Incoming.side) ∧
    filledWritesFor c7Incoming.id (processOrder c7Book c7Incoming).writes =
      cumFrom c7Incoming.filled
        ((processOrder c7Book c7Incoming).result.trades.map Trade.size) ∧
    filledWritesFor c7Incoming.id (processOrder c7Book c7Incoming).writes =
      [25, 50, 60] :=
  ⟨by with_unfolding_all decide,
   claim7_cumulative_filled c7Book c7Incoming (by with_unfolding_all decide),
   by with_unfolding_all decide⟩

/-- C10: a LIMIT, MARKET or IOC order of size exactly 0 produces no trades,
is returned with status FILLED (filled 0 equals size 0), and is never
inserted into any book (its id appears in neither book afterwards, given it
was fresh). -/
theorem claim10_zero_size (st : BookPair) (o : Order)
    (hsize : o.size = 0) (htype : o.otype ≠ .FOK)
    (hidy : o.id ∉ bookOrderIds st.yes) (hidn : o.id ∉ bookOrderIds st.no) :
    (processOrder st o).result.trades = [] ∧
    (processOrder st o).result.order.status = .FILLED ∧
    o.id ∉ bookOrderIds (processOrder st o).state.yes ∧
    o.id ∉ bookOrderIds (processOrder st o).state.no := by
  have hrej : ¬ (o.otype = .FOK ∧ ¬ canFillOrderCompletely o
      (getOrderBookWithPrioritySort (oppositeBookOf st o.side))) :=
    fun hc => htype hc.1
  have hml := matchLoopResult_of_size_zero st o hsize
  have hstate : (processOrder st o).state =
      setOppositeBook st o.side (getOrderBookWithPrioritySort (oppositeBookOf st o.side)) := by
    rw [processOrder_state_eq st o hrej, hml]
    rw [if_neg (by simp [hsize])]
  have hopp : ∀ i : Nat, i ∈ bookOrderIds
      (getOrderBookWithPrioritySort (oppositeBookOf st o.side)) → i ∈ bookOrderIds st.yes ∨
      i ∈ bookOrderIds st.no := by
    intro i hi
    rw [mem_bookOrderIds_timeSorted_iff] at hi
    by_cases hs : o.side = .YES
    · rw [oppositeBookOf, if_pos hs] at hi
      exact Or.inr hi
    · rw [oppositeBookOf, if_neg hs] at hi
      exact Or.inl hi
  refine ⟨?_, ?_, ?_, ?_⟩
  · rw [processOrder_trades_eq st o hrej, hml]
  · rw [processOrder_order_eq st o hrej]
    show finalStatus o (matchLoopResult st o).2.remainingSize = .FILLED
    rw [hml]
    show finalStatus o o.size = .FILLED
    rw [hsize]
    exact finalStatus_of_remaining_zero o
  · rw [hstate]
    by_cases hs : o.side = .YES
    · rw [setOppositeBook, if_pos hs]
      exact hidy
    · rw [setOppositeBook, if_neg hs]
      intro hmem
      rcases hopp o.id hmem with h1 | h2
      · exact hidy h1
      · exact hidn h2
  · rw [hstate]
    by_cases hs : o.side = .YES
    · rw [setOppositeBook, if_pos hs]
      intro hmem
      rcases hopp o.id hmem with h1 | h2
      · exact hidy h1
      · exact hidn h2
    · rw [setOppositeBook, if_neg hs]
      exact hidn

/-- C10 (witness): the concrete zero-size YES limit order against a nonempty
NO book: no trades, status FILLED, not present in either book. -/
theorem claim10_zero_size_witness :
    c10Incoming.size = 0 ∧ c10Incoming.otype ≠ .FOK ∧
    c10Incoming.id ∉ bookOrderIds c10Book.yes ∧
    c10Incoming.id ∉ bookOrderIds c10Book.no ∧
    ((processOrder c10Book c10Incoming).result.trades = [] ∧
     (processOrder c10Book c10Incoming).result.order.status = .FILLED ∧
     c10Incoming.id ∉ bookOrderIds (processOrder c10Book c10Incoming).state.yes ∧
     c10Incoming.id ∉ bookOrderIds (processOrder c10Book c10Incoming).state.no) :=
  ⟨by with_unfolding_all decide, by with_unfolding_all decide,
   by with_unfolding_all decide, by with_unfolding_all decide,
   claim10_zero_size c10Book c10Incoming (by with_unfolding_all decide)
     (by with_unfolding_all decide) (by with_unfolding_all decide)
     (by with_unfolding_all decide)⟩

end MatchingEngine

end SBE
